import Mathlib

set_option maxHeartbeats 1000000

/-
Verification of the math-images extraction/parsing/rendering core.

This file gives a shallow embedding of the three Rust source files

  * `src/math2img-tectonic/src/extract.rs` (equation extraction),
  * `src/math2img/src/parser.rs`           (LaTeX math parser),
  * `src/math2img/src/render.rs`           (measurement, layout, dimensions),

and settles the specification claims C1..C10 about them.

Conventions of the embedding:
  * The extractor in the source scans `content.as_bytes()`; it is modelled
    over `List Char`, one `Char` per byte (all concrete inputs of interest
    are ASCII, where the two coincide), with `start`/`stop` the byte indices.
  * The scanning loops of the source (regex scans, the `$` state machine) are
    written with an explicit step counter ("fuel") so that every definition
    is structurally recursive and kernel-computable.  Every loop advances its
    position by at least one per step, so a fuel of `length + 1` (resp. `+ 2`)
    can never be exhausted; the invariant theorems below hold for every fuel.
  * `f32` arithmetic of the renderer is modelled over `ℚ`; the saturating
    `as u32` cast is modelled exactly (negative values clamp to `0`).
-/

namespace Extract

/-- The byte string being scanned (`content.as_bytes()` in the source). -/
abbrev Chars := List Char

/-- The `Equation` record of `extract.rs`.  The Rust field `end` is called
`stop` here (`end` is a Lean keyword); `[start, stop)` is the half-open byte
range the equation occupied. -/
structure Equation where
  content : Chars
  isDisplay : Bool
  start : Nat
  stop : Nat
deriving Repr, DecidableEq

/-- `overlaps` from `extract.rs`: does `[start, stop)` intersect any range of
`used`? -/
def overlaps (used : List (Nat × Nat)) (start stop : Nat) : Bool :=
  used.any fun p => decide (start < p.2) && decide (stop > p.1)

/-- The substring (byte slice) `cs[a..b]`. -/
def sub (cs : Chars) (a b : Nat) : Chars :=
  (cs.drop a).take (b - a)

/-- Rust's `char::is_whitespace`: the Unicode `White_Space` property — the
ASCII whitespace controls and space, NEL, NBSP, the ogham space mark, the
en-quad…hair-space block, line and paragraph separators, the narrow no-break
space, the medium mathematical space and the ideographic space. -/
def isRustWs (c : Char) : Bool :=
  c == ' ' || c == '\t' || c == '\n' || c == '\r' ||
  c == '\u000B' || c == '\u000C' || c == '\u0085' || c == '\u00A0' ||
  c == '\u1680' || (0x2000 ≤ c.toNat && c.toNat ≤ 0x200A) ||
  c == '\u2028' || c == '\u2029' || c == '\u202F' || c == '\u205F' ||
  c == '\u3000'

/-- `str::trim`: drop Unicode whitespace from both ends. -/
def trimWs (cs : Chars) : Chars :=
  ((cs.dropWhile isRustWs).reverse.dropWhile isRustWs).reverse

/-- The environment-name alternation of the Phase-1 regex of
`extract_from_latex`, expanded into its finitely many alternatives. -/
def envNames : List Chars :=
  ["equation", "equation*", "align", "align*", "gather", "gather*",
   "multline", "multline*", "displaymath", "flalign", "flalign*",
   "eqnarray", "eqnarray*", "pmatrix", "bmatrix", "vmatrix", "Bmatrix",
   "Vmatrix", "cases"].map String.toList

def beginTok : Chars := "\\begin\x7b".toList

def endTok : Chars := "\\end\x7b".toList

/-- Does `\begin{NAME}` (NAME from the alternation) match at byte `i`?
Returns the name and the index just past its closing brace. -/
def beginAt (cs : Chars) (i : Nat) : Option (Chars × Nat) :=
  if beginTok.isPrefixOf (cs.drop i) then
    match envNames.find? (fun n => (n ++ ['\x7d']).isPrefixOf (cs.drop (i + beginTok.length))) with
    | some n => some (n, i + beginTok.length + n.length + 1)
    | none => none
  else none

/-- Does `\end{NAME}` match at byte `i`?  Returns the name and the index just
past its closing brace (the end of the whole regex match). -/
def endAt (cs : Chars) (i : Nat) : Option (Chars × Nat) :=
  if endTok.isPrefixOf (cs.drop i) then
    match envNames.find? (fun n => (n ++ ['\x7d']).isPrefixOf (cs.drop (i + endTok.length))) with
    | some n => some (n, i + endTok.length + n.length + 1)
    | none => none
  else none

/-- The non-greedy `(?s)(.*?)\end{NAME}` part: the first position `≥ i` where
`\end{NAME}` matches.  Returns the closing name and the match end. -/
def endFind (cs : Chars) : Nat → Nat → Option (Chars × Nat)
  | 0, _ => none
  | fuel+1, i =>
    if i > cs.length then none
    else
      match endAt cs i with
      | some r => some r
      | none => endFind cs fuel (i+1)

/-- Phase 1 of `extract_from_latex`: the `captures_iter` loop over the
`\begin{..}(.*?)\end{..}` regex.  A candidate is accepted only when the two
captured names agree and the span overlaps no used range; scanning resumes at
the end of the (possibly rejected) match, as `captures_iter` does. -/
def envScan (cs : Chars) : Nat → Nat → List (Nat × Nat) → List Equation →
    List (Nat × Nat) × List Equation
  | 0, _, used, eqs => (used, eqs)
  | fuel+1, i, used, eqs =>
    if i > cs.length then (used, eqs)
    else
      match beginAt cs i with
      | some (n1, j) =>
        match endFind cs (cs.length + 1) j with
        | some (n2, k) =>
          if n1 = n2 && !overlaps used i k then
            envScan cs fuel k (used ++ [(i, k)]) (eqs ++ [⟨sub cs i k, true, i, k⟩])
          else envScan cs fuel k used eqs
        | none => envScan cs fuel (i+1) used eqs
      | none => envScan cs fuel (i+1) used eqs

/-- First position `≥ i` where `tok` matches. -/
def findTok (cs tok : Chars) : Nat → Nat → Option Nat
  | 0, _ => none
  | fuel+1, i =>
    if i > cs.length then none
    else if tok.isPrefixOf (cs.drop i) then some i
    else findTok cs tok fuel (i+1)

/-- The `captures_iter` loops over the three non-greedy delimiter regexes
`$$(.*?)$$`, `\[(.*?)\]` and `\((.*?)\)` of `extract_from_latex`: find an
opening token, then the first closing token after it; the stored content is
the whitespace-trimmed inner capture. -/
def delimScan (cs openTok closeTok : Chars) (disp : Bool) :
    Nat → Nat → List (Nat × Nat) → List Equation → List (Nat × Nat) × List Equation
  | 0, _, used, eqs => (used, eqs)
  | fuel+1, i, used, eqs =>
    if i > cs.length then (used, eqs)
    else if openTok.isPrefixOf (cs.drop i) then
      match findTok cs closeTok (cs.length + 1) (i + openTok.length) with
      | some k =>
        let e := k + closeTok.length
        if !overlaps used i e then
          delimScan cs openTok closeTok disp fuel e (used ++ [(i, e)])
            (eqs ++ [⟨trimWs (sub cs (i + openTok.length) k), disp, i, e⟩])
        else delimScan cs openTok closeTok disp fuel e used eqs
      | none => delimScan cs openTok closeTok disp fuel (i+1) used eqs
    else delimScan cs openTok closeTok disp fuel (i+1) used eqs

mutual

/-- The outer loop of the byte-level `$ ... $` state machine of
`extract_from_latex`. -/
def dollarOuter (cs : Chars) : Nat → Nat → List (Nat × Nat) → List Equation →
    List (Nat × Nat) × List Equation
  | 0, _, used, eqs => (used, eqs)
  | fuel+1, i, used, eqs =>
    if i < cs.length then
      if cs.get? i = some '$' then
        if cs.get? (i+1) = some '$' then dollarOuter cs fuel (i+2) used eqs
        else if 0 < i ∧ cs.get? (i-1) = some '$' then dollarOuter cs fuel (i+1) used eqs
        else if 0 < i ∧ cs.get? (i-1) = some '\\' then dollarOuter cs fuel (i+1) used eqs
        else dollarInner cs fuel (i+1) i used eqs
      else dollarOuter cs fuel (i+1) used eqs
    else (used, eqs)

/-- The inner loop of the `$ ... $` state machine: scan for the closing `$`
of the inline opened at byte `opn`. -/
def dollarInner (cs : Chars) : Nat → Nat → Nat → List (Nat × Nat) → List Equation →
    List (Nat × Nat) × List Equation
  | 0, _, _, used, eqs => (used, eqs)
  | fuel+1, i, opn, used, eqs =>
    if i < cs.length then
      if cs.get? i = some '$' ∧ (i = 0 ∨ ¬cs.get? (i-1) = some '\\') then
        if cs.get? (i+1) = some '$' then dollarInner cs fuel (i+2) opn used eqs
        else
          -- `close = i + 1`; push iff no overlap and the trimmed inner is
          -- non-empty; the outer loop resumes at `i + 1` either way
          if !overlaps used opn (i+1) && !(trimWs (sub cs (opn+1) i)).isEmpty then
            dollarOuter cs fuel (i+1) (used ++ [(opn, i+1)])
              (eqs ++ [⟨trimWs (sub cs (opn+1) i), false, opn, i+1⟩])
          else dollarOuter cs fuel (i+1) used eqs
      else dollarInner cs fuel (i+1) opn used eqs
    else (used, eqs)

end

/-- `sort_by_key(|eq| eq.start)` sorts by this relation (stable). -/
def startLe (a b : Equation) : Prop := a.start ≤ b.start

instance : DecidableRel startLe := fun a b => Nat.decLe a.start b.start

instance : IsTotal Equation startLe := ⟨fun a b => Nat.le_total a.start b.start⟩

instance : IsTrans Equation startLe := ⟨fun _ _ _ h h' => Nat.le_trans h h'⟩

/-- `extract_from_latex`: the two scanning phases in source order, then the
stable sort by `start`. -/
def extractFromLatex (cs : Chars) : List Equation :=
  let st1 := envScan cs (cs.length + 1) 0 [] []
  let st2 := delimScan cs ("$$".toList) ("$$".toList) true (cs.length + 1) 0 st1.1 st1.2
  let st3 := delimScan cs ("\\[".toList) ("\\]".toList) true (cs.length + 1) 0 st2.1 st2.2
  let st4 := delimScan cs ("\\(".toList) ("\\)".toList) false (cs.length + 1) 0 st3.1 st3.2
  let st5 := dollarOuter cs (cs.length + 2) 0 st4.1 st4.2
  List.insertionSort startLe st5.2

/-- `content.split('\n')` with byte offsets (the `scan` in
`find_code_ranges`). -/
def splitLinesAux : Nat → Chars → Nat → List (Nat × Chars)
  | 0, rest, off => [(off, rest)]
  | fuel+1, rest, off =>
    let k := rest.findIdx (· = '\n')
    if k < rest.length then
      (off, rest.take k) :: splitLinesAux fuel (rest.drop (k+1)) (off + k + 1)
    else [(off, rest)]

def splitLines (cs : Chars) : List (Nat × Chars) := splitLinesAux (cs.length + 1) cs 0

/-- A line whose trimmed content starts with a triple backtick or tilde. -/
def isFenceLine (line : Chars) : Bool :=
  ("\x60\x60\x60".toList).isPrefixOf (trimWs line) ||
    ("~~~".toList).isPrefixOf (trimWs line)

/-- The fenced-block loop of `find_code_ranges`: open/close pairs of fence
lines; an unmatched opener contributes nothing. -/
def fenceRanges : List (Nat × Chars) → Bool → Nat → List (Nat × Nat) → List (Nat × Nat)
  | [], _, _, acc => acc
  | (off, line) :: rest, inFence, fs, acc =>
    if !inFence && isFenceLine line then fenceRanges rest true off acc
    else if inFence && isFenceLine line then
      fenceRanges rest false fs (acc ++ [(fs, off + line.length)])
    else fenceRanges rest inFence fs acc

/-- The `find_iter` loop over the inline-code regex `` `[^`\n]+` ``. -/
def inlineCodeScan (cs : Chars) : Nat → Nat → List (Nat × Nat) → List (Nat × Nat)
  | 0, _, acc => acc
  | fuel+1, i, acc =>
    if i ≥ cs.length then acc
    else if cs.get? i = some '\x60' then
      let run := ((cs.drop (i+1)).takeWhile (fun c => !(c == '\x60' || c == '\n'))).length
      if 0 < run ∧ cs.get? (i + 1 + run) = some '\x60' then
        let e := i + run + 2
        inlineCodeScan cs fuel e (if overlaps acc i e then acc else acc ++ [(i, e)])
      else inlineCodeScan cs fuel (i+1) acc
    else inlineCodeScan cs fuel (i+1) acc

/-- `find_code_ranges` from `extract.rs`. -/
def findCodeRanges (cs : Chars) : List (Nat × Nat) :=
  inlineCodeScan cs (cs.length + 1) 0 (fenceRanges (splitLines cs) false 0 [])

/-- `extract_from_markdown`: drop every equation whose whole range lies inside
some code range. -/
def extractFromMarkdown (cs : Chars) : List Equation :=
  let ranges := findCodeRanges cs
  (extractFromLatex cs).filter fun eq =>
    !(ranges.any fun p => decide (eq.start ≥ p.1) && decide (eq.stop ≤ p.2))

end Extract

namespace Parser

open Extract (Chars trimWs)

/-- The `MathNode` AST of `parser.rs`.  `f32` em-values are modelled as `ℚ`. -/
inductive MathNode where
  | Symbol (c : Char)
  | Row (children : List MathNode)
  | Frac (num den : MathNode)
  | Sup (base sup : MathNode)
  | Sub (base sub : MathNode)
  | SubSup (base sub sup : MathNode)
  | Sqrt (inner : MathNode)
  | Matrix (rows : List (List MathNode)) (leftDelim rightDelim : Option Char)
  | Text (s : String)
  | Space (em : ℚ)
  | Overline (inner : MathNode)
  | Delimited (left right : Char) (content : MathNode)
  | Accent (mark : Char) (inner : MathNode)
  | Cases (rows : List (List MathNode))
deriving Repr

/-- `skip_ws`: drop leading whitespace (Rust `char::is_whitespace`, i.e.
Unicode `White_Space`) at the read cursor. -/
def skipWs (s : Chars) : Chars := s.dropWhile Extract.isRustWs

/-- `read_cmd`: the maximal ASCII-alphabetic run after the backslash; if the
run is empty, exactly one following character (if any) is the command name. -/
def readCmd (s : Chars) : String × Chars :=
  let run := s.takeWhile Char.isAlpha
  if run.isEmpty then
    match s with
    | [] => ("", [])
    | c :: rest => (String.mk [c], rest)
  else (String.mk run, s.dropWhile Char.isAlpha)

/-- `read_until`: consume up to (not including) `stop` or end of input. -/
def readUntil (stop : Char) (s : Chars) : String × Chars :=
  (String.mk (s.takeWhile (· != stop)), s.dropWhile (· != stop))

/-- `eat`: skip whitespace, then consume `c` if it is next. -/
def eatTok (c : Char) (s : Chars) : Bool × Chars :=
  match skipWs s with
  | c' :: rest => if c' = c then (true, rest) else (false, c' :: rest)
  | [] => (false, [])

/-- `read_env_name`: `{NAME}` (tolerating a missing brace). -/
def readEnvName (s : Chars) : String × Chars :=
  let (_, s1) := eatTok '\x7b' s
  let (name, s2) := readUntil '\x7d' s1
  let (_, s3) := eatTok '\x7d' s2
  (name, s3)

/-- The command-to-delimiter table inside `read_delim_char`. -/
def delimCmdChar (cmd : String) : Char :=
  match cmd with
  | "\x7b" | "lbrace" => '\x7b'
  | "\x7d" | "rbrace" => '\x7d'
  | "|" | "lVert" | "rVert" => '‖'
  | "langle" => '⟨'
  | "rangle" => '⟩'
  | "lceil" => '⌈'
  | "rceil" => '⌉'
  | "lfloor" => '⌊'
  | "rfloor" => '⌋'
  | "lvert" | "rvert" => '|'
  | _ => '.'

/-- `read_delim_char`: a backslash-command naming a delimiter, or one literal
character; a literal `.` yields `'\0'` ("no delimiter"). -/
def readDelimChar (s : Chars) : Char × Chars :=
  match skipWs s with
  | [] => ('\x00', [])
  | c :: rest =>
    if c = '\\' then
      let (cmd, s1) := readCmd rest
      (delimCmdChar cmd, s1)
    else if c = '.' then ('\x00', rest)
    else (c, rest)

/-- `is_math_char` from `parser.rs`. -/
def isMathChar (c : Char) : Bool :=
  c.isAlphanum ||
    (c ∈ ['+', '-', '*', '/', '=', '<', '>', '(', ')', '[', ']',
          '|', '!', '?', ',', ';', ':', '.', '\''])

/-- The non-recursive arms of `dispatch_cmd`: Greek letters, operators,
relations, arrows, miscellaneous symbols, dots, delimiters, spacing and
function names, exactly as tabulated in `parser.rs`. -/
def simpleCmd (cmd : String) : Option MathNode :=
  match cmd with
  | "alpha" => some (.Symbol 'α')
  | "beta" => some (.Symbol 'β')
  | "gamma" => some (.Symbol 'γ')
  | "delta" => some (.Symbol 'δ')
  | "epsilon" | "varepsilon" => some (.Symbol 'ε')
  | "zeta" => some (.Symbol 'ζ')
  | "eta" => some (.Symbol 'η')
  | "theta" | "vartheta" => some (.Symbol 'θ')
  | "iota" => some (.Symbol 'ι')
  | "kappa" => some (.Symbol 'κ')
  | "lambda" => some (.Symbol 'λ')
  | "mu" => some (.Symbol 'μ')
  | "nu" => some (.Symbol 'ν')
  | "xi" => some (.Symbol 'ξ')
  | "pi" | "varpi" => some (.Symbol 'π')
  | "rho" | "varrho" => some (.Symbol 'ρ')
  | "sigma" | "varsigma" => some (.Symbol 'σ')
  | "tau" => some (.Symbol 'τ')
  | "upsilon" => some (.Symbol 'υ')
  | "phi" | "varphi" => some (.Symbol 'φ')
  | "chi" => some (.Symbol 'χ')
  | "psi" => some (.Symbol 'ψ')
  | "omega" => some (.Symbol 'ω')
  | "Gamma" => some (.Symbol 'Γ')
  | "Delta" => some (.Symbol 'Δ')
  | "Theta" => some (.Symbol 'Θ')
  | "Lambda" => some (.Symbol 'Λ')
  | "Xi" => some (.Symbol 'Ξ')
  | "Pi" => some (.Symbol 'Π')
  | "Sigma" => some (.Symbol 'Σ')
  | "Upsilon" => some (.Symbol 'Υ')
  | "Phi" => some (.Symbol 'Φ')
  | "Psi" => some (.Symbol 'Ψ')
  | "Omega" => some (.Symbol 'Ω')
  | "sum" => some (.Symbol '∑')
  | "prod" => some (.Symbol '∏')
  | "int" => some (.Symbol '∫')
  | "iint" => some (.Symbol '∬')
  | "iiint" => some (.Symbol '∭')
  | "oint" => some (.Symbol '∮')
  | "bigcup" => some (.Symbol '⋃')
  | "bigcap" => some (.Symbol '⋂')
  | "bigoplus" => some (.Symbol '⨁')
  | "bigotimes" => some (.Symbol '⨂')
  | "coprod" => some (.Symbol '∐')
  | "times" => some (.Symbol '×')
  | "div" => some (.Symbol '÷')
  | "cdot" => some (.Symbol '⋅')
  | "pm" => some (.Symbol '±')
  | "mp" => some (.Symbol '∓')
  | "circ" => some (.Symbol '∘')
  | "ast" => some (.Symbol '∗')
  | "star" => some (.Symbol '⋆')
  | "oplus" => some (.Symbol '⊕')
  | "otimes" => some (.Symbol '⊗')
  | "leq" | "le" => some (.Symbol '≤')
  | "geq" | "ge" => some (.Symbol '≥')
  | "neq" | "ne" => some (.Symbol '≠')
  | "approx" => some (.Symbol '≈')
  | "equiv" => some (.Symbol '≡')
  | "sim" => some (.Symbol '∼')
  | "simeq" => some (.Symbol '≃')
  | "cong" => some (.Symbol '≅')
  | "propto" => some (.Symbol '∝')
  | "subset" => some (.Symbol '⊂')
  | "supset" => some (.Symbol '⊃')
  | "subseteq" => some (.Symbol '⊆')
  | "supseteq" => some (.Symbol '⊇')
  | "in" => some (.Symbol '∈')
  | "notin" => some (.Symbol '∉')
  | "ni" => some (.Symbol '∋')
  | "cup" => some (.Symbol '∪')
  | "cap" => some (.Symbol '∩')
  | "vee" | "lor" => some (.Symbol '∨')
  | "wedge" | "land" => some (.Symbol '∧')
  | "perp" => some (.Symbol '⊥')
  | "parallel" => some (.Symbol '∥')
  | "mid" => some (.Symbol '|')
  | "ll" => some (.Symbol '≪')
  | "gg" => some (.Symbol '≫')
  | "prec" => some (.Symbol '≺')
  | "succ" => some (.Symbol '≻')
  | "to" | "rightarrow" => some (.Symbol '→')
  | "leftarrow" | "gets" => some (.Symbol '←')
  | "leftrightarrow" => some (.Symbol '↔')
  | "Rightarrow" => some (.Symbol '⇒')
  | "Leftarrow" => some (.Symbol '⇐')
  | "Leftrightarrow" | "iff" => some (.Symbol '⇔')
  | "uparrow" => some (.Symbol '↑')
  | "downarrow" => some (.Symbol '↓')
  | "mapsto" => some (.Symbol '↦')
  | "hookrightarrow" => some (.Symbol '↪')
  | "longrightarrow" => some (.Symbol '⟶')
  | "Longrightarrow" => some (.Symbol '⟹')
  | "infty" => some (.Symbol '∞')
  | "partial" => some (.Symbol '∂')
  | "nabla" => some (.Symbol '∇')
  | "forall" => some (.Symbol '∀')
  | "exists" => some (.Symbol '∃')
  | "nexists" => some (.Symbol '∄')
  | "emptyset" | "varnothing" => some (.Symbol '∅')
  | "neg" | "lnot" => some (.Symbol '¬')
  | "angle" => some (.Symbol '∠')
  | "triangle" => some (.Symbol '△')
  | "prime" => some (.Symbol '′')
  | "hbar" => some (.Symbol 'ℏ')
  | "ell" => some (.Symbol 'ℓ')
  | "aleph" => some (.Symbol 'ℵ')
  | "Re" => some (.Symbol 'ℜ')
  | "Im" => some (.Symbol 'ℑ')
  | "ldots" | "dots" => some (.Symbol '…')
  | "cdots" => some (.Symbol '⋯')
  | "vdots" => some (.Symbol '⋮')
  | "ddots" => some (.Symbol '⋱')
  | "langle" => some (.Symbol '⟨')
  | "rangle" => some (.Symbol '⟩')
  | "lceil" => some (.Symbol '⌈')
  | "rceil" => some (.Symbol '⌉')
  | "lfloor" => some (.Symbol '⌊')
  | "rfloor" => some (.Symbol '⌋')
  | "lbrace" | "\x7b" => some (.Symbol '\x7b')
  | "rbrace" | "\x7d" => some (.Symbol '\x7d')
  | "lvert" | "rvert" => some (.Symbol '|')
  | "lVert" | "rVert" | "|" => some (.Symbol '‖')
  | "," => some (.Space (17/100))
  | ":" | ">" => some (.Space (22/100))
  | ";" => some (.Space (28/100))
  | "!" => some (.Space (-(17/100)))
  | "quad" => some (.Space 1)
  | "qquad" => some (.Space 2)
  | " " => some (.Space (25/100))
  | "sin" | "cos" | "tan" | "cot" | "sec" | "csc"
  | "arcsin" | "arccos" | "arctan"
  | "sinh" | "cosh" | "tanh" | "coth"
  | "log" | "ln" | "exp"
  | "lim" | "limsup" | "liminf"
  | "max" | "min" | "sup" | "inf"
  | "det" | "gcd" | "lcm" | "dim" | "ker" | "deg"
  | "arg" | "hom" | "Pr" | "mod" => some (.Text cmd)
  | _ => none

/-- Is the peeked command one of the three sentinels on which
`parse_expr_until` rewinds and stops? -/
def isSentinel (cmd : String) : Bool :=
  cmd == "end" || cmd == "right" || cmd == "\\"

/-- The final single-child collapse of `parse_expr_until` (invariant I1). -/
def collapseRow (ns : List MathNode) : MathNode :=
  match ns with
  | [n] => n
  | _ => .Row ns

/-- `maybe_scripts`' final assembly of the collected scripts. -/
def mkScripts (base : MathNode) (sb sp : Option MathNode) : MathNode :=
  match sb, sp with
  | some b, some p => .SubSup base b p
  | none, some p => .Sup base p
  | some b, none => .Sub base b
  | none, none => base

/-- The flush after `parse_tabular`'s loop: push the trailing row iff
non-empty. -/
def ptabFlush (rows : List (List MathNode)) (row : List MathNode) :
    List (List MathNode) :=
  if row.isEmpty then rows else rows ++ [row]

/-- `parse_env`'s default arm: a single 1x1 tabular collapses to its cell,
anything else becomes an undelimited `Matrix`. -/
def penvCollapse (rows : List (List MathNode)) : MathNode :=
  match rows with
  | [[cell]] => cell
  | _ => .Matrix rows none none

mutual

/-- The accumulation loop of `parse_expr_until` (the `nodes` vector). -/
def peuAux : Nat → (Char → Bool) → Chars → Option (List MathNode × Chars)
  | 0, _, _ => none
  | n+1, stop, s =>
    match skipWs s with
    | [] => some ([], [])
    | c :: rest =>
      if stop c then some ([], c :: rest)
      else if c == '\\' && isSentinel (readCmd rest).1 then some ([], c :: rest)
      else if c == '^' || c == '_' then
        match ms n (.Row []) none none (c :: rest) with
        | none => none
        | some (a, s1) =>
          match peuAux n stop s1 with
          | none => none
          | some (ns, s2) => some (a :: ns, s2)
      else
        match psa n (c :: rest) with
        | none => none
        | some (oa, s1) =>
          match oa with
          | none => some ([], s1)
          | some a =>
            match ms n a none none s1 with
            | none => none
            | some (a', s2) =>
              match peuAux n stop s2 with
              | none => none
              | some (ns, s3) => some (a' :: ns, s3)

/-- `parse_expr_until`: the loop, then the single-child collapse. -/
def peu : Nat → (Char → Bool) → Chars → Option (MathNode × Chars)
  | 0, _, _ => none
  | n+1, stop, s =>
    match peuAux n stop s with
    | none => none
    | some (ns, r) => some (collapseRow ns, r)

/-- `parse_single_atom`.  (The `'{'` case is `read_group` with the brace
known present, written out: consume `{`, parse to `}`, eat `}`.) -/
def psa : Nat → Chars → Option (Option MathNode × Chars)
  | 0, _ => none
  | n+1, s =>
    match skipWs s with
    | [] => some (none, [])
    | c :: rest =>
      if c == '\\' then
        dcmd n (readCmd rest).1 (readCmd rest).2
      else if c == '\x7b' then
        match peu n (fun c' => c' == '\x7d') rest with
        | none => none
        | some (nd, s1) => some (some nd, (eatTok '\x7d' s1).2)
      else if c == '\x7d' || c == '&' || c == '^' || c == '_' then
        some (none, c :: rest)
      else
        -- both the `is_math_char` arm and the passthrough arm yield Symbol(c)
        some (some (.Symbol c), rest)

/-- `read_group`: a braced expression, else exactly one atom
(`unwrap_or(Row [])`). -/
def rg : Nat → Chars → Option (MathNode × Chars)
  | 0, _ => none
  | n+1, s =>
    match eatTok '\x7b' s with
    | (true, s1) =>
      match peu n (fun c => c == '\x7d') s1 with
      | none => none
      | some (nd, s2) => some (nd, (eatTok '\x7d' s2).2)
    | (false, s1) =>
      match psa n s1 with
      | none => none
      | some (oa, s2) => some (oa.getD (.Row []), s2)

/-- `maybe_scripts`: accept at most one `^` and one `_` in either order. -/
def ms : Nat → MathNode → Option MathNode → Option MathNode → Chars →
    Option (MathNode × Chars)
  | 0, _, _, _, _ => none
  | n+1, base, sb, sp, s =>
    match skipWs s with
    | [] => some (mkScripts base sb sp, [])
    | c :: rest =>
      if c == '^' && sp.isNone then
        match rg n rest with
        | none => none
        | some (g, s1) => ms n base sb (some g) s1
      else if c == '_' && sb.isNone then
        match rg n rest with
        | none => none
        | some (g, s1) => ms n base (some g) sp s1
      else some (mkScripts base sb sp, c :: rest)

/-- `dispatch_cmd`. -/
def dcmd : Nat → String → Chars → Option (Option MathNode × Chars)
  | 0, _, _ => none
  | n+1, cmd, s =>
    match cmd with
    | "frac" | "dfrac" | "tfrac" =>
      match rg n s with
      | none => none
      | some (num, s1) =>
        match rg n s1 with
        | none => none
        | some (den, s2) => some (some (.Frac num den), s2)
    | "sqrt" =>
      match rg n s with
      | none => none
      | some (c, s1) => some (some (.Sqrt c), s1)
    | "overline" | "bar" =>
      match rg n s with
      | none => none
      | some (c, s1) => some (some (.Overline c), s1)
    | "hat" =>
      match rg n s with
      | none => none
      | some (c, s1) => some (some (.Accent '̂' c), s1)
    | "tilde" =>
      match rg n s with
      | none => none
      | some (c, s1) => some (some (.Accent '~' c), s1)
    | "vec" =>
      match rg n s with
      | none => none
      | some (c, s1) => some (some (.Accent '→' c), s1)
    | "dot" =>
      match rg n s with
      | none => none
      | some (c, s1) => some (some (.Accent '˙' c), s1)
    | "ddot" =>
      match rg n s with
      | none => none
      | some (c, s1) => some (some (.Accent '¨' c), s1)
    | "text" | "textrm" | "mathrm" | "operatorname" =>
      let s1 := (eatTok '\x7b' s).2
      some (some (.Text (readUntil '\x7d' s1).1),
        (eatTok '\x7d' (readUntil '\x7d' s1).2).2)
    | "mathbf" | "textbf" | "boldsymbol" | "bm" | "mathit" | "textit"
    | "mathcal" | "mathbb" | "mathfrak" | "mathsf" | "mathtt" =>
      match rg n s with
      | none => none
      | some (c, s1) => some (some c, s1)
    | "left" =>
      match peu n (fun _ => false) (readDelimChar s).2 with
      | none => none
      | some (inner, s2) =>
        -- we exited because of the \right sentinel: advance over '\',
        -- consume "right", read the delimiter
        some (some (.Delimited (readDelimChar s).1
          (readDelimChar (readCmd s2.tail).2).1 inner),
          (readDelimChar (readCmd s2.tail).2).2)
    | "right" => some (none, s)
    | "begin" =>
      penv n (readEnvName s).1 (readEnvName s).2
    | "end" =>
      some (none, (readEnvName s).2)
    | "\\" => some (none, s)
    | "not" => psa n s
    | _ =>
      match simpleCmd cmd with
      | some nd => some (some nd, s)
      | none => some (some (.Text ("\\" ++ cmd)), s)

/-- `parse_env`: dispatch on the environment name. -/
def penv : Nat → String → Chars → Option (Option MathNode × Chars)
  | 0, _, _ => none
  | n+1, env, s =>
    match env with
    | "pmatrix" => pmx n (some '(') (some ')') s
    | "bmatrix" => pmx n (some '[') (some ']') s
    | "Bmatrix" => pmx n (some '\x7b') (some '\x7d') s
    | "vmatrix" => pmx n (some '|') (some '|') s
    | "Vmatrix" => pmx n (some '‖') (some '‖') s
    | "matrix" | "smallmatrix" => pmx n none none s
    | "cases" =>
      match ptab n [] [] s with
      | none => none
      | some (rows, s1) => some (some (.Cases rows), s1)
    | "array" =>
      let s0 := skipWs s
      let s1 :=
        if s0.head? = some '\x7b' then
          (eatTok '\x7d' (readUntil '\x7d' (eatTok '\x7b' s0).2).2).2
        else s0
      pmx n none none s1
    | _ =>
      match ptab n [] [] s with
      | none => none
      | some (rows, s1) => some (some (penvCollapse rows), s1)

/-- `parse_matrix`. -/
def pmx : Nat → Option Char → Option Char → Chars → Option (Option MathNode × Chars)
  | 0, _, _, _ => none
  | n+1, l, r, s =>
    match ptab n [] [] s with
    | none => none
    | some (rows, s1) => some (some (.Matrix rows l r), s1)

/-- The loop of `parse_tabular`, carrying the `rows` and `row` accumulators;
on every `break` the non-empty trailing row is flushed. -/
def ptab : Nat → List (List MathNode) → List MathNode → Chars →
    Option (List (List MathNode) × Chars)
  | 0, _, _, _ => none
  | n+1, rows, row, s =>
    match peu n (fun c => c == '&') s with
    | none => none
    | some (cell, s1) =>
      let s2 := skipWs s1
      if s2.head? = some '&' then ptab n rows (row ++ [cell]) s2.tail
      else if s2.head? = some '\\' then
        let cmd := (readCmd s2.tail).1
        let s3 := (readCmd s2.tail).2
        if cmd = "end" then
          some (ptabFlush rows (row ++ [cell]), (readEnvName s3).2)
        else if cmd = "\\" then
          let sk := skipWs s3
          let s5 :=
            if sk.head? = some '[' then (eatTok ']' (readUntil ']' sk.tail).2).2
            else sk
          ptab n (rows ++ [row ++ [cell]]) [] s5
        else if cmd = "hline" || cmd = "cline" then
          let s4 :=
            if cmd = "cline" then
              (eatTok '\x7d' (readUntil '\x7d' (eatTok '\x7b' s3).2).2).2
            else s3
          -- the parsed cell is not pushed; the loop continues
          ptab n rows row s4
        else some (ptabFlush rows (row ++ [cell]), s2)
      else some (ptabFlush rows (row ++ [cell]), s2)

end

/-- The environment-name alternation of the `strip_env_wrapper` regex. -/
def wrapNames : List Chars :=
  ["equation", "equation*", "displaymath", "math"].map String.toList

/-- `strip_env_wrapper`: trim; if the whole input is
`\begin{N1} … \end{N2}` with both names from the alternation, and the names
agree, return the trimmed middle, else the trimmed input. -/
def stripEnvWrapper (input : Chars) : Chars :=
  let t := trimWs input
  match wrapNames.find? (fun n => (Extract.beginTok ++ n ++ ['\x7d']).isPrefixOf t) with
  | some n1 =>
    match wrapNames.find? (fun n => (Extract.endTok ++ n ++ ['\x7d']).isSuffixOf t) with
    | some n2 =>
      let pl := Extract.beginTok.length + n1.length + 1
      let sl := Extract.endTok.length + n2.length + 1
      if pl + sl ≤ t.length ∧ n1 = n2 then
        trimWs ((t.drop pl).take (t.length - sl - pl))
      else t
    | none => t
  | none => t

/-- Fuel that the totality theorem proves sufficient for `parse_expr_until`
on a stripped input of length `len`. -/
def parseFuel (len : Nat) : Nat := 8 * len + 9

/-- `parse` (on the character sequence): strip a redundant environment
wrapper, then `parse_expr_until(|_| false)`.  `none` means the fuel ran out —
the totality theorem shows it never does. -/
def parseChars (input : Chars) : Option MathNode :=
  let t := stripEnvWrapper input
  match peu (parseFuel t.length) (fun _ => false) t with
  | none => none
  | some (nd, _) => some nd

/-- `parse` from `parser.rs`. -/
def parse (input : String) : Option MathNode := parseChars input.toList

end Parser

namespace Render

open Parser (MathNode)

/-- The scaled-font interface the renderer consumes (`ab_glyph`'s
`glyph_id`, `h_advance`, `ascent`, `descent`, each at a pixel size).  The
embedded STIX font is an external binary asset; the render claims hold for
every font, so the metrics are parameters.  All `f32` values are modelled as
exact rationals. -/
structure FontM where
  glyphId : Char → Nat
  hAdvance : Nat → ℚ → ℚ
  ascent : ℚ → ℚ
  descent : ℚ → ℚ

/-- `Theme` from `render.rs`. -/
inductive Theme where
  | dark
  | light
deriving Repr, DecidableEq

/-- `Theme::bg` (RGBA). -/
def Theme.bg : Theme → Nat × Nat × Nat × Nat
  | .dark => (43, 48, 59, 255)
  | .light => (255, 255, 255, 255)

/-- `Theme::fg` (RGBA). -/
def Theme.fg : Theme → Nat × Nat × Nat × Nat
  | .dark => (192, 197, 206, 255)
  | .light => (51, 51, 51, 255)

/-- `Dims` from `render.rs`. -/
structure Dims where
  width : ℚ
  ascent : ℚ
  descent : ℚ
deriving Repr, DecidableEq

def Dims.height (d : Dims) : ℚ := d.ascent + d.descent

/-- `DrawCmd` from `render.rs` (the `Text` variant's field `text` is `s`). -/
inductive DrawCmd where
  | Glyph (x y : ℚ) (ch : Char) (size : ℚ)
  | HLine (x y width thickness : ℚ)
  | Text (x y : ℚ) (s : String) (size : ℚ)
deriving Repr, DecidableEq

/-- `is_bin_or_rel` from `render.rs`. -/
def isBinOrRel (ch : Char) : Bool :=
  ch ∈ ['=', '<', '>', '+', '-',
        '≤', '≥', '≠', '≈', '≡', '∼', '≃', '≅', '∝',
        '⊂', '⊃', '⊆', '⊇', '∈', '∉', '∋', '∪', '∩', '∨', '∧',
        '×', '÷', '±', '∓', '→', '←', '↔', '⇒', '⇐', '⇔', '↦', '≪', '≫']

/-- `is_spaced_node` from `render.rs`. -/
def isSpacedNode : MathNode → Bool
  | .Symbol ch => isBinOrRel ch
  | _ => false

/-- `measure_char`: glyph id 0 (and not a space) gets fallback metrics. -/
def measureChar (f : FontM) (ch : Char) (size : ℚ) : Dims :=
  if f.glyphId ch = 0 ∧ ch ≠ ' ' then
    ⟨size * (6/10), size * (7/10), size * (2/10)⟩
  else ⟨f.hAdvance (f.glyphId ch) size, f.ascent size, -(f.descent size)⟩

/-- `measure_text`: advances summed; line metrics from the font. -/
def measureText (f : FontM) (t : String) (size : ℚ) : Dims :=
  ⟨t.toList.foldl (fun w ch => w + f.hAdvance (f.glyphId ch) size) 0,
   f.ascent size, -(f.descent size)⟩

/-- Per-column widths of `measure_matrix`/`layout_matrix` (`col_w`,
initialised to `0.0` and maxed over the cells present in each row). -/
def colWidths (grid : List (List Dims)) (ncols : Nat) : List ℚ :=
  (List.range ncols).map fun j =>
    grid.foldl
      (fun acc row =>
        match row.get? j with
        | some d => max acc d.width
        | none => acc)
      0

/-- Per-row `(ascent, descent)` of `measure_matrix`/`layout_matrix`
(initialised to `0.4·s` / `0.2·s`). -/
def rowHeights (size : ℚ) (grid : List (List Dims)) : List (ℚ × ℚ) :=
  grid.map fun row =>
    (row.foldl (fun a d => max a d.ascent) (size * (4/10)),
     row.foldl (fun a d => max a d.descent) (size * (2/10)))

/-- `measure_matrix` (after the per-cell measuring pass `grid`). -/
def measureMatrix (size : ℚ) (grid : List (List Dims))
    (hasLeft hasRight : Bool) : Dims :=
  if grid.isEmpty then ⟨0, 0, 0⟩
  else
    let ncols := grid.foldl (fun a r => max a r.length) 0
    let gx := size * (6/10)
    let gy := size * (3/10)
    let dw := size * (3/10)
    let colW := colWidths grid ncols
    let rh := rowHeights size grid
    let tw := colW.sum + gx * ((ncols - 1 : Nat) : ℚ)
      + (if hasLeft then dw else 0) + (if hasRight then dw else 0)
      + size * (2/10)
    let th := (rh.map fun p => p.1 + p.2).sum + gy * ((grid.length - 1 : Nat) : ℚ)
    ⟨tw, th/2 + size * (15/100), th/2 - size * (15/100)⟩

mutual

/-- `measure` from `render.rs`. -/
def measure (f : FontM) (size : ℚ) : MathNode → Dims
  | .Symbol ch => measureChar f ch size
  | .Text t => measureText f t size
  | .Space em => ⟨em * size, 0, 0⟩
  | .Row children => measureRowGo f size children none 0 0 0
  | .Frac num den =>
    let ns := size * (8/10)
    let n := measure f ns num
    let d := measure f ns den
    let rule := size * (5/100)
    let gap := size * (15/100)
    ⟨max n.width d.width + size * (3/10),
     n.height + gap + rule/2, d.height + gap + rule/2⟩
  | .Sup base exp =>
    let b := measure f size base
    let es := size * (65/100)
    let e := measure f es exp
    let shift := b.ascent * (1/2)
    ⟨b.width + e.width + size * (3/100),
     max b.ascent (shift + e.ascent), b.descent⟩
  | .Sub base idx =>
    let b := measure f size base
    let is := size * (65/100)
    let i := measure f is idx
    let shift := b.descent + b.ascent * (2/10)
    ⟨b.width + i.width + size * (3/100),
     b.ascent, max b.descent (shift + i.descent)⟩
  | .SubSup base sb sp =>
    let b := measure f size base
    let sc := size * (65/100)
    let dsp := measure f sc sp
    let dsb := measure f sc sb
    ⟨b.width + max dsp.width dsb.width + size * (3/100),
     max b.ascent (b.ascent * (1/2) + dsp.ascent),
     max b.descent (b.descent + b.ascent * (2/10) + dsb.descent)⟩
  | .Sqrt content =>
    let c := measure f size content
    let radW := size * (5/10)
    ⟨radW + c.width + size * (1/10),
     c.ascent + size * (15/100), c.descent + size * (1/10)⟩
  | .Overline content =>
    let c := measure f size content
    ⟨c.width, c.ascent + size * (15/100), c.descent⟩
  | .Accent _ content =>
    let c := measure f size content
    ⟨c.width, c.ascent + size * (15/100), c.descent⟩
  | .Matrix rows l r =>
    measureMatrix size (measureGrid f size rows) l.isSome r.isSome
  | .Cases rows =>
    measureMatrix size (measureGrid f size rows) true false
  | .Delimited _ _ content =>
    let c := measure f size content
    let dw := size * (25/100)
    ⟨c.width + dw * 2 + size * (1/10),
     c.ascent + size * (1/10), c.descent + size * (1/10)⟩

/-- The `Row` measuring loop of `measure` (accumulators `w`, `asc`, `desc`;
`prev` is the preceding child for the wide-gap test). -/
def measureRowGo (f : FontM) (size : ℚ) :
    List MathNode → Option MathNode → ℚ → ℚ → ℚ → Dims
  | [], _, w, asc, desc => ⟨w, asc, desc⟩
  | c :: rest, prev, w, asc, desc =>
    let d := measure f size c
    let w' := w +
      (match prev with
       | none => 0
       | some p =>
         if isSpacedNode c || isSpacedNode p then size * (2/10)
         else size * (5/100)) + d.width
    measureRowGo f size rest (some c) w' (max asc d.ascent) (max desc d.descent)

/-- Measure every cell of a matrix (the per-cell `measure` calls of
`measure_matrix`). -/
def measureGrid (f : FontM) (size : ℚ) : List (List MathNode) → List (List Dims)
  | [] => []
  | row :: rest => measureCells f size row :: measureGrid f size rest

def measureCells (f : FontM) (size : ℚ) : List MathNode → List Dims
  | [] => []
  | c :: rest => measure f size c :: measureCells f size rest

end

mutual

/-- `layout` from `render.rs`: the draw commands in the order the source
pushes them, for a node whose baseline starts at `(x, yb)`. -/
def layout (f : FontM) (size x yb : ℚ) : MathNode → List DrawCmd
  | .Symbol ch => [.Glyph x yb ch size]
  | .Text t => [.Text x yb t size]
  | .Space _ => []
  | .Row children => layoutRowGo f size yb children none x
  | .Frac num den =>
    let ns := size * (8/10)
    let nd := measure f ns num
    let dd := measure f ns den
    let ruleT := size * (5/100)
    let gap := size * (15/100)
    let tw := max nd.width dd.width + size * (3/10)
    let axis := yb - size * (22/100)
    let nx := x + (tw - nd.width)/2
    let nby := axis - gap - ruleT/2 - nd.descent
    let dx := x + (tw - dd.width)/2
    let dby := axis + gap + ruleT/2 + dd.ascent
    .HLine x axis tw ruleT :: (layout f ns nx nby num ++ layout f ns dx dby den)
  | .Sup base exp =>
    let bd := measure f size base
    let es := size * (65/100)
    layout f size x yb base ++
      layout f es (x + bd.width + size * (3/100)) (yb - bd.ascent * (1/2)) exp
  | .Sub base idx =>
    let bd := measure f size base
    let is := size * (65/100)
    layout f size x yb base ++
      layout f is (x + bd.width + size * (3/100))
        (yb + bd.descent + bd.ascent * (2/10)) idx
  | .SubSup base sb sp =>
    let bd := measure f size base
    let sc := size * (65/100)
    let sx := x + bd.width + size * (3/100)
    layout f size x yb base ++
      layout f sc sx (yb - bd.ascent * (1/2)) sp ++
      layout f sc sx (yb + bd.descent + bd.ascent * (2/10)) sb
  | .Sqrt content =>
    let cd := measure f size content
    let rw := size * (5/10)
    let ruleT := size * (5/100)
    .Glyph x yb '√' (size * (11/10)) ::
      .HLine (x + rw) (yb - cd.ascent - size * (1/10)) (cd.width + size * (1/10)) ruleT ::
      layout f size (x + rw) yb content
  | .Overline content =>
    let cd := measure f size content
    .HLine x (yb - cd.ascent - size * (1/10)) cd.width (size * (5/100)) ::
      layout f size x yb content
  | .Accent ach content =>
    let cd := measure f size content
    let asz := size * (5/10)
    let aw := f.hAdvance (f.glyphId ach) asz
    layout f size x yb content ++
      [.Glyph (x + (cd.width - aw)/2) (yb - cd.ascent - size * (5/100)) ach asz]
  | .Matrix rows l r => layoutMatrix f size x yb rows l r
  | .Cases rows => layoutMatrix f size x yb rows (some '\x7b') none
  | .Delimited dleft dright content =>
    let cd := measure f size content
    let dw := size * (25/100)
    let ds := min (cd.height + size * (2/10)) (size * (25/10))
    (if dleft ≠ '\x00' then [DrawCmd.Glyph x yb dleft ds] else []) ++
      layout f size (x + dw + size * (5/100)) yb content ++
      (if dright ≠ '\x00' then
        [DrawCmd.Glyph (x + dw + size * (5/100) + cd.width + size * (5/100)) yb
          dright ds]
       else [])
termination_by n => (sizeOf n, 0)

/-- The `Row` layout loop (cursor `cx`; `prev` for the wide-gap test). -/
def layoutRowGo (f : FontM) (size yb : ℚ) :
    List MathNode → Option MathNode → ℚ → List DrawCmd
  | [], _, _ => []
  | c :: rest, prev, cx =>
    let cx' := cx +
      (match prev with
       | none => 0
       | some p =>
         if isSpacedNode c || isSpacedNode p then size * (2/10)
         else size * (5/100))
    layout f size cx' yb c ++
      layoutRowGo f size yb rest (some c) (cx' + (measure f size c).width)
termination_by l _ _ => (sizeOf l, 0)

/-- `layout_matrix` from `render.rs`. -/
def layoutMatrix (f : FontM) (size x yb : ℚ) (rows : List (List MathNode))
    (l r : Option Char) : List DrawCmd :=
  if rows.isEmpty then []
  else
    let grid := measureGrid f size rows
    let ncols := grid.foldl (fun a row => max a row.length) 0
    let gx := size * (6/10)
    let gy := size * (3/10)
    let dw := size * (3/10)
    let colW := colWidths grid ncols
    let rm := rowHeights size grid
    let th := (rm.map fun p => p.1 + p.2).sum + gy * ((rows.length - 1 : Nat) : ℚ)
    let cx := x + (if l.isSome then dw else 0) + size * (1/10)
    let top := yb - th/2
    let leftCmds :=
      match l with
      | some ld => [DrawCmd.Glyph x yb ld (min th (size * 3))]
      | none => []
    let rightCmds :=
      match r with
      | some rd =>
        let contentW := colW.sum + gx * ((ncols - 1 : Nat) : ℚ)
        [DrawCmd.Glyph (cx + contentW + size * (1/10)) yb rd (min th (size * 3))]
      | none => []
    leftCmds ++ layoutRows f size gx gy colW cx rows rm top ++ rightCmds
termination_by (sizeOf rows, 1)

/-- The row loop of `layout_matrix`, walking the rows together with their
`(ascent, descent)` metrics `row_m` (built from the same rows, so the lists
have equal length and the mismatch arm is unreachable); `cy` is the running
top. -/
def layoutRows (f : FontM) (size gx gy : ℚ) (colW : List ℚ) (cx : ℚ) :
    List (List MathNode) → List (ℚ × ℚ) → ℚ → List DrawCmd
  | [], _, _ => []
  | _ :: _, [], _ => []
  | row :: rest, (ra, rd) :: rms, cy =>
    layoutCells f size (cy + ra) gx row colW cx ++
      layoutRows f size gx gy colW cx rest rms (cy + ra + rd + gy)
termination_by rows _ _ => (sizeOf rows, 0)

/-- The cell loop of `layout_matrix`, walking a row's cells together with
their column widths `col_w` (a row has at most `ncols = col_w.len()` cells,
so the mismatch arm is unreachable); every cell is centered in its column. -/
def layoutCells (f : FontM) (size cellBy gx : ℚ) :
    List MathNode → List ℚ → ℚ → List DrawCmd
  | [], _, _ => []
  | _ :: _, [], _ => []
  | cell :: rest, cw :: cws, cellX =>
    let d := measure f size cell
    let off := (cw - d.width)/2
    layout f size (cellX + off) cellBy cell ++
      layoutCells f size cellBy gx rest cws (cellX + cw + gx)
termination_by row _ _ => (sizeOf row, 0)

end

/-- Rust's saturating `f32 as u32` cast: negative values clamp to `0`,
values above `u32::MAX` clamp to it, the fraction is truncated (not
rounded, not ceiled). -/
def toU32 (q : ℚ) : Nat :=
  if q ≤ 0 then 0 else min q.floor.toNat (2 ^ 32 - 1)

/-- The output of `render_equation` relevant to the claims: the image
dimensions, the measured dims, the draw-command list, and the theme colors
the rasterisation uses.  (The pixel-buffer filling itself consumes `cmds`
with `fg` over a buffer initialised to `bg`.) -/
structure RenderOut where
  imgW : Nat
  imgH : Nat
  dims : Dims
  cmds : List DrawCmd
  bg : Nat × Nat × Nat × Nat
  fg : Nat × Nat × Nat × Nat
deriving Repr

/-- `render_equation` from `render.rs`: pixel size `font_size·scale`,
`padding = 16·scale as u32`, image `(dims.width as u32 + padding * 2).max(1)`
by `(dims.height() as u32 + padding * 2).max(1)`, origin at
`(padding, padding + ascent)`.  `padding * 2` and the `+` are `u32`
operations: in the release profile they wrap modulo `2^32`
(`4294967296`), which the two inner `%` reductions mirror. -/
def renderEquation (f : FontM) (node : MathNode) (theme : Theme)
    (fontSize scale : ℚ) : RenderOut :=
  let pxSize := fontSize * scale
  let padding := toU32 (16 * scale)
  let d := measure f pxSize node
  let originX : ℚ := (padding : ℚ)
  let originY : ℚ := (padding : ℚ) + d.ascent
  { imgW := max ((toU32 d.width + padding * 2 % 4294967296) % 4294967296) 1
    imgH := max ((toU32 d.height + padding * 2 % 4294967296) % 4294967296) 1
    dims := d
    cmds := layout f pxSize originX originY node
    bg := theme.bg
    fg := theme.fg }

/-- `padding` as computed in `render_equation`. -/
def pad (scale : ℚ) : Nat := toU32 (16 * scale)

end Render

namespace Extract

/-- Disjointness of the half-open byte ranges of two equations. -/
def disjointRange (a b : Equation) : Prop :=
  a.stop ≤ b.start ∨ b.stop ≤ a.start

/-- Every equation's claimed range is recorded in `used`. -/
def RangesCover (used : List (Nat × Nat)) (eqs : List Equation) : Prop :=
  ∀ e ∈ eqs, (e.start, e.stop) ∈ used

/-- The invariant threaded through all scanning phases of
`extract_from_latex`: the used-range list covers every accepted equation,
and the accepted equations are pairwise disjoint. -/
def GoodState (used : List (Nat × Nat)) (eqs : List Equation) : Prop :=
  RangesCover used eqs ∧ eqs.Pairwise disjointRange

/-- An inline equation never begins at a `$` whose preceding byte is a
backslash (a `\$` does not open inline math). -/
def ValidInlineStart (cs : Chars) (e : Equation) : Prop :=
  e.isDisplay = false → 0 < e.start → cs.get? (e.start - 1) = some '\\' →
    ¬cs.get? e.start = some '$'

/-- Every accepted equation satisfies `ValidInlineStart`. -/
def InlineOk (cs : Chars) (eqs : List Equation) : Prop :=
  ∀ e ∈ eqs, ValidInlineStart cs e

end Extract

namespace Parser

open Extract (Chars)

/-- Does `maybe_scripts` consume at least one character from `s` in its first
loop iteration (a `^` with no superscript yet, or a `_` with no subscript
yet)?  Used to state the conditional consumption bound of `ms`. -/
def msTakes (sb sp : Option MathNode) (s : Chars) : Bool :=
  match skipWs s with
  | c :: _ => (c == '^' && sp.isNone) || (c == '_' && sb.isNone)
  | [] => false

end Parser

namespace Render

/-- A concrete font interface (all metrics zero) for closed statements; the
claims that depend on no glyph metric are evaluated at it. -/
def anyFont : FontM :=
  { glyphId := fun _ => 0
    hAdvance := fun _ _ => 0
    ascent := fun _ => 0
    descent := fun _ => 0 }

end Render

/-! ## Lemmas: the extraction invariant (C1) -/

namespace Extract

theorem overlaps_false {used : List (Nat × Nat)} {s e : Nat}
    (h : overlaps used s e = false) :
    ∀ p ∈ used, e ≤ p.1 ∨ p.2 ≤ s := by
  intro p hp
  have h' := List.any_eq_false.mp h p hp
  simp only [Bool.and_eq_true, decide_eq_true_eq, not_and] at h'
  omega

theorem goodState_push {used : List (Nat × Nat)} {eqs : List Equation}
    {s e : Nat} {c : Chars} {d : Bool}
    (h : GoodState used eqs) (hov : overlaps used s e = false) :
    GoodState (used ++ [(s, e)]) (eqs ++ [⟨c, d, s, e⟩]) := by
  obtain ⟨hc, hp⟩ := h
  constructor
  · intro x hx
    rcases List.mem_append.mp hx with hx | hx
    · exact List.mem_append.mpr (Or.inl (hc x hx))
    · simp only [List.mem_singleton] at hx
      subst hx
      simp
  · rw [List.pairwise_append]
    refine ⟨hp, List.pairwise_singleton _ _, ?_⟩
    intro a ha b hb
    simp only [List.mem_singleton] at hb
    subst hb
    have := overlaps_false hov _ (hc a ha)
    unfold disjointRange
    simp only
    omega

theorem envScan_good (cs : Chars) :
    ∀ fuel i used eqs, GoodState used eqs →
      GoodState (envScan cs fuel i used eqs).1 (envScan cs fuel i used eqs).2 := by
  intro fuel
  induction fuel with
  | zero => intro i used eqs h; simpa [envScan] using h
  | succ n ih =>
    intro i used eqs h
    rw [envScan]
    split
    · exact h
    · split
      · split
        · split
          · rename_i hcond
            simp only [Bool.and_eq_true, Bool.not_eq_true', decide_eq_true_eq] at hcond
            exact ih _ _ _ (goodState_push h hcond.2)
          · exact ih _ _ _ h
        · exact ih _ _ _ h
      · exact ih _ _ _ h

theorem delimScan_good (cs openTok closeTok : Chars) (disp : Bool) :
    ∀ fuel i used eqs, GoodState used eqs →
      GoodState (delimScan cs openTok closeTok disp fuel i used eqs).1
        (delimScan cs openTok closeTok disp fuel i used eqs).2 := by
  intro fuel
  induction fuel with
  | zero => intro i used eqs h; simpa [delimScan] using h
  | succ n ih =>
    intro i used eqs h
    rw [delimScan]
    split
    · exact h
    · split
      · split
        · dsimp only
          split
          · rename_i hcond
            simp only [Bool.not_eq_true'] at hcond
            exact ih _ _ _ (goodState_push h hcond)
          · exact ih _ _ _ h
        · exact ih _ _ _ h
      · exact ih _ _ _ h

theorem dollar_good (cs : Chars) :
    ∀ fuel,
      (∀ i used eqs, GoodState used eqs →
        GoodState (dollarOuter cs fuel i used eqs).1
          (dollarOuter cs fuel i used eqs).2) ∧
      (∀ i opn used eqs, GoodState used eqs →
        GoodState (dollarInner cs fuel i opn used eqs).1
          (dollarInner cs fuel i opn used eqs).2) := by
  intro fuel
  induction fuel with
  | zero =>
    constructor
    · intro i used eqs h; simpa [dollarOuter] using h
    · intro i opn used eqs h; simpa [dollarInner] using h
  | succ n ih =>
    constructor
    · intro i used eqs h
      rw [dollarOuter]
      split
      · split
        · split
          · exact ih.1 _ _ _ h
          · split
            · exact ih.1 _ _ _ h
            · split
              · exact ih.1 _ _ _ h
              · exact ih.2 _ _ _ _ h
        · exact ih.1 _ _ _ h
      · exact h
    · intro i opn used eqs h
      rw [dollarInner]
      split
      · split
        · split
          · exact ih.2 _ _ _ _ h
          · split
            · rename_i hcond
              simp only [Bool.and_eq_true, Bool.not_eq_true'] at hcond
              exact ih.1 _ _ _ (goodState_push h hcond.1)
            · exact ih.1 _ _ _ h
        · exact ih.2 _ _ _ _ h
      · exact h

theorem disjointRange_symm : Symmetric disjointRange := by
  intro a b h
  unfold disjointRange at *
  omega

theorem extractFromLatex_good (cs : Chars) :
    (extractFromLatex cs).Pairwise startLe ∧
      (extractFromLatex cs).Pairwise disjointRange := by
  have h0 : GoodState ([] : List (Nat × Nat)) ([] : List Equation) :=
    ⟨fun e he => absurd he (List.not_mem_nil e), List.Pairwise.nil⟩
  have h1 := envScan_good cs (cs.length + 1) 0 [] [] h0
  have h2 := delimScan_good cs ("$$".toList) ("$$".toList) true (cs.length + 1) 0 _ _ h1
  have h3 := delimScan_good cs ("\\[".toList) ("\\]".toList) true (cs.length + 1) 0 _ _ h2
  have h4 := delimScan_good cs ("\\(".toList) ("\\)".toList) false (cs.length + 1) 0 _ _ h3
  have h5 := (dollar_good cs (cs.length + 2)).1 0 _ _ h4
  constructor
  · exact List.sorted_insertionSort startLe _
  · unfold extractFromLatex
    exact ((List.perm_insertionSort startLe _).pairwise_iff
      (fun hab => disjointRange_symm hab)).mpr h5.2

end Extract

namespace Extract

theorem extractFromMarkdown_sublist (cs : Chars) :
    (extractFromMarkdown cs).Sublist (extractFromLatex cs) := by
  unfold extractFromMarkdown
  exact List.filter_sublist _

theorem get?_head_of_prefix {cs : Chars} {i : Nat} {c : Char} {tk : Chars}
    (h : (c :: tk).isPrefixOf (cs.drop i) = true) : cs.get? i = some c := by
  rcases hd : cs.drop i with _ | ⟨d, ds⟩
  · rw [hd] at h
    simp [List.isPrefixOf] at h
  · rw [hd] at h
    simp only [List.isPrefixOf, Bool.and_eq_true, beq_iff_eq] at h
    have h0 : (cs.drop i).get? 0 = some d := by rw [hd]; rfl
    rw [List.get?_drop] at h0
    rw [← h.1] at h0
    simpa using h0

theorem envScan_inlineOk (cs : Chars) :
    ∀ fuel i used eqs, InlineOk cs eqs →
      InlineOk cs (envScan cs fuel i used eqs).2 := by
  intro fuel
  induction fuel with
  | zero => intro i used eqs h; simpa [envScan] using h
  | succ n ih =>
    intro i used eqs h
    rw [envScan]
    split
    · exact h
    · split
      · split
        · split
          · refine ih _ _ _ ?_
            intro e he
            rcases List.mem_append.mp he with he | he
            · exact h e he
            · simp only [List.mem_singleton] at he
              subst he
              intro hdisp
              simp at hdisp
          · exact ih _ _ _ h
        · exact ih _ _ _ h
      · exact ih _ _ _ h

theorem delimScan_inlineOk (cs openTok closeTok : Chars) (disp : Bool)
    (hop : ∀ i, openTok.isPrefixOf (cs.drop i) = true → disp = false →
      cs.get? i = some '\\') :
    ∀ fuel i used eqs, InlineOk cs eqs →
      InlineOk cs (delimScan cs openTok closeTok disp fuel i used eqs).2 := by
  intro fuel
  induction fuel with
  | zero => intro i used eqs h; simpa [delimScan] using h
  | succ n ih =>
    intro i used eqs h
    rw [delimScan]
    split
    · exact h
    · split
      · rename_i hpre
        split
        · dsimp only
          split
          · refine ih _ _ _ ?_
            intro e he
            rcases List.mem_append.mp he with he | he
            · exact h e he
            · simp only [List.mem_singleton] at he
              subst he
              intro hdisp _ _ habs
              rw [hop i hpre hdisp] at habs
              simp at habs
          · exact ih _ _ _ h
        · exact ih _ _ _ h
      · exact ih _ _ _ h

theorem dollar_inlineOk (cs : Chars) :
    ∀ fuel,
      (∀ i used eqs, InlineOk cs eqs →
        InlineOk cs (dollarOuter cs fuel i used eqs).2) ∧
      (∀ i opn used eqs, ¬(0 < opn ∧ cs.get? (opn - 1) = some '\\') →
        InlineOk cs eqs → InlineOk cs (dollarInner cs fuel i opn used eqs).2) := by
  intro fuel
  induction fuel with
  | zero =>
    constructor
    · intro i used eqs h; simpa [dollarOuter] using h
    · intro i opn used eqs _ h; simpa [dollarInner] using h
  | succ n ih =>
    constructor
    · intro i used eqs h
      rw [dollarOuter]
      split
      · split
        · split
          · exact ih.1 _ _ _ h
          · split
            · exact ih.1 _ _ _ h
            · split
              · exact ih.1 _ _ _ h
              · rename_i hnb
                exact ih.2 _ _ _ _ hnb h
        · exact ih.1 _ _ _ h
      · exact h
    · intro i opn used eqs hopn h
      rw [dollarInner]
      split
      · split
        · split
          · exact ih.2 _ _ _ _ hopn h
          · split
            · refine ih.1 _ _ _ ?_
              intro e he
              rcases List.mem_append.mp he with he | he
              · exact h e he
              · simp only [List.mem_singleton] at he
                subst he
                intro _ hpos hprev _
                exact hopn ⟨hpos, hprev⟩
            · exact ih.1 _ _ _ h
        · exact ih.2 _ _ _ _ hopn h
      · exact h

theorem extractFromLatex_inlineOk (cs : Chars) :
    InlineOk cs (extractFromLatex cs) := by
  intro e he
  unfold extractFromLatex at he
  dsimp only at he
  have hmem := (List.perm_insertionSort startLe _).mem_iff.mp he
  exact (dollar_inlineOk cs (cs.length + 2)).1 _ _ _
    (delimScan_inlineOk cs _ _ false (fun i hp _ => get?_head_of_prefix hp) _ _ _ _
      (delimScan_inlineOk cs _ _ true (fun i _ hd => by simp at hd) _ _ _ _
        (delimScan_inlineOk cs _ _ true (fun i _ hd => by simp at hd) _ _ _ _
          (envScan_inlineOk cs _ _ _ _
            (fun e2 he2 => absurd he2 (List.not_mem_nil e2))))))
    e hmem

end Extract

/-! ## The claims -/

/-- C1: for every input string, the equation list returned by extraction
(`extract_from_latex`, and hence `extract_from_markdown`) is sorted by
`start` ascending and the `[start, stop)` byte ranges of its elements are
pairwise disjoint. -/
theorem c1_extraction_sorted_disjoint (cs : Extract.Chars) :
    ((Extract.extractFromLatex cs).Pairwise Extract.startLe ∧
      (Extract.extractFromLatex cs).Pairwise Extract.disjointRange) ∧
    ((Extract.extractFromMarkdown cs).Pairwise Extract.startLe ∧
      (Extract.extractFromMarkdown cs).Pairwise Extract.disjointRange) := by
  obtain ⟨hs, hd⟩ := Extract.extractFromLatex_good cs
  exact ⟨⟨hs, hd⟩,
    ⟨hs.sublist (Extract.extractFromMarkdown_sublist cs),
      hd.sublist (Extract.extractFromMarkdown_sublist cs)⟩⟩

/-- C2: for the input `"a $x+1$ b $$y=2$$ c"` in strict TeX mode,
`extract_from_latex` returns exactly two equations, inline `x+1` at
`[2, 7)` then display `y=2` at `[10, 17)`. -/
theorem c2_inline_and_display_extraction :
    Extract.extractFromLatex ("a $x+1$ b $$y=2$$ c".toList) =
      [⟨"x+1".toList, false, 2, 7⟩, ⟨"y=2".toList, true, 10, 17⟩] := by
  decide

/-- C3: a `$` whose preceding byte is `\` never opens inline math: no inline
equation in any extraction ever starts at a backslash-preceded `$`, and the
input `"cost is \$5 but $k$ works"` yields exactly one equation, inline
`k`. -/
theorem c3_escaped_dollar_never_opens :
    Extract.extractFromLatex ("cost is \\$5 but $k$ works".toList) =
      [⟨"k".toList, false, 16, 19⟩] ∧
    (∀ (cs : Extract.Chars) (e : Extract.Equation),
      e ∈ Extract.extractFromLatex cs → e.isDisplay = false → 0 < e.start →
      cs.get? (e.start - 1) = some '\\' → ¬cs.get? e.start = some '$') := by
  refine ⟨by decide, ?_⟩
  intro cs e he
  exact Extract.extractFromLatex_inlineOk cs e he

/-- Witness for C3: in `"\\(x\)"` the extracted inline equation starts at
byte 1, right after a backslash — so byte 1 is not a `$`. -/
theorem c3_witness : ¬("\\\\(x\\)".toList.get? 1 = some '$') :=
  c3_escaped_dollar_never_opens.2 ("\\\\(x\\)".toList)
    ⟨"x".toList, false, 1, 6⟩ (by decide) (by decide) (by decide) (by decide)

/-- C4 counterexample: on `"\begin{align} x \end{equation} y \end{align}"`
the non-greedy scan reaches the *first* `\end{NAME}` for any recognised NAME
(here `\end{equation}`), the mismatched pair is rejected outright, and the
`captures_iter` scan resumes after it — so the extraction yields *no*
equation at all, not a display equation spanning to `\end{align}` as the
claim states. -/
theorem c4_counterexample :
    Extract.extractFromLatex
      ("\\begin\x7balign\x7d x \\end\x7bequation\x7d y \\end\x7balign\x7d".toList)
      = [] := by
  decide

/-- C4 amended: the environment scan matches non-greedily from
`\begin{NAME1}` to the *first* `\end{NAME2}` for *any* recognised NAME2; if
the two names differ the candidate is rejected entirely (no equation is
produced for it — it is not re-matched against a later `\end`), so the
example input yields no equations; when the names agree, the span from
`\begin{NAME}` to that `\end{NAME}` is produced verbatim as one display
equation.  A `\begin` is thus never paired with an `\end` of another name. -/
theorem c4_env_first_end_and_name_check :
    Extract.extractFromLatex
      ("\\begin\x7balign\x7d x \\end\x7bequation\x7d y \\end\x7balign\x7d".toList)
      = [] ∧
    Extract.extractFromLatex ("\\begin\x7balign\x7d x \\end\x7balign\x7d".toList) =
      [⟨"\\begin\x7balign\x7d x \\end\x7balign\x7d".toList, true, 0, 27⟩] := by
  constructor
  · decide
  · decide

/-- C5 counterexample: in markdown mode an *unterminated* fence masks
nothing: for `"```\n$x$\n"` (a fence opener with no later closing fence
line), the `$x$` lying entirely after the opener is *kept*, not dropped as
the claim states. -/
theorem c5_counterexample :
    Extract.extractFromMarkdown ("\x60\x60\x60\n$x$\n".toList) =
      [⟨"x".toList, false, 4, 7⟩] := by
  decide

theorem fenceRanges_no_fence (lines : List (Nat × Extract.Chars)) (b : Bool)
    (fs : Nat) (acc : List (Nat × Nat))
    (h : ∀ l ∈ lines, Extract.isFenceLine l.2 = false) :
    Extract.fenceRanges lines b fs acc = acc := by
  induction lines generalizing b fs with
  | nil => rfl
  | cons l rest ih =>
    obtain ⟨off, line⟩ := l
    have hl : Extract.isFenceLine line = false := h (off, line) (by simp)
    simp only [Extract.fenceRanges, hl, Bool.and_false, Bool.false_eq_true,
      if_false]
    exact ih b fs (fun x hx => h x (List.mem_cons_of_mem _ hx))

theorem fenceRanges_atMostOne (lines : List (Nat × Extract.Chars)) (fs : Nat)
    (acc : List (Nat × Nat))
    (h : (lines.filter fun l => Extract.isFenceLine l.2).length ≤ 1) :
    Extract.fenceRanges lines false fs acc = acc := by
  induction lines generalizing fs with
  | nil => rfl
  | cons l rest ih =>
    obtain ⟨off, line⟩ := l
    by_cases hl : Extract.isFenceLine line
    · have hflt : (rest.filter fun l => Extract.isFenceLine l.2) = [] := by
        simp only [List.filter_cons, hl, if_true, List.length_cons] at h
        exact List.length_eq_zero.mp (by omega)
      have hrest : ∀ x ∈ rest, Extract.isFenceLine x.2 = false := by
        intro x hx
        by_contra hc
        have hm : x ∈ rest.filter fun l => Extract.isFenceLine l.2 :=
          List.mem_filter.mpr ⟨hx, by simpa using hc⟩
        simp [hflt] at hm
      simp only [Extract.fenceRanges, hl, Bool.not_false, Bool.true_and, if_true]
      exact fenceRanges_no_fence rest true off acc hrest
    · have hl' : Extract.isFenceLine line = false := by simpa using hl
      simp only [Extract.fenceRanges, hl', Bool.and_false, Bool.false_eq_true,
        if_false]
      refine ih fs ?_
      simpa only [List.filter_cons, hl', Bool.false_eq_true, if_false] using h

/-- C5 amended: an unterminated code fence itself masks nothing: in general,
whenever the input has at most one fence line (an unterminated opener, or
none), `find_code_ranges` consists exactly of the inline-code spans — the
fence loop records a range only for a fence closed by a later fence line —
so an equation after an unterminated opener can be dropped only by an
inline-code span, never by the fence.  Concretely: an unterminated opener
line followed by `$x$` yields no code range and the equation is kept; a
*terminated* fence does mask the equations inside it; and an equation after
an unterminated opener that sits inside inline code is dropped by the
inline-code span, not by the fence. -/
theorem c5_unterminated_fence_masks_nothing :
    (∀ cs : Extract.Chars,
      ((Extract.splitLines cs).filter fun l => Extract.isFenceLine l.2).length ≤ 1 →
      Extract.findCodeRanges cs =
        Extract.inlineCodeScan cs (cs.length + 1) 0 []) ∧
    Extract.findCodeRanges ("\x60\x60\x60\n$x$\n".toList) = [] ∧
    Extract.extractFromMarkdown ("\x60\x60\x60\n$x$\n".toList) =
      [⟨"x".toList, false, 4, 7⟩] ∧
    Extract.extractFromMarkdown ("\x60\x60\x60\n$x$\n\x60\x60\x60\n".toList) = [] ∧
    Extract.extractFromMarkdown ("\x60\x60\x60\n\x60$x$\x60\n".toList) = [] := by
  refine ⟨?_, by decide, by decide, by decide, by decide⟩
  intro cs h
  unfold Extract.findCodeRanges
  rw [fenceRanges_atMostOne (Extract.splitLines cs) 0 [] h]

/-- Witness for C5: the unterminated-fence input has a single fence line, and
its code ranges are exactly its inline-code spans (here none). -/
theorem c5_witness :
    ((Extract.splitLines ("\x60\x60\x60\n$x$\n".toList)).filter
        fun l => Extract.isFenceLine l.2).length ≤ 1 ∧
      Extract.findCodeRanges ("\x60\x60\x60\n$x$\n".toList) =
        Extract.inlineCodeScan ("\x60\x60\x60\n$x$\n".toList)
          (("\x60\x60\x60\n$x$\n".toList).length + 1) 0 [] :=
  ⟨by decide, c5_unterminated_fence_masks_nothing.1 _ (by decide)⟩

/-! ## Lemmas: consumption bounds of the parser helpers -/

namespace Parser

open Extract (Chars)

theorem dropWhile_len_le {α : Type} (p : α → Bool) (s : List α) :
    (s.dropWhile p).length ≤ s.length := by
  induction s with
  | nil => simp
  | cons c t ih =>
    by_cases h : p c
    · simp only [List.dropWhile, h, List.length_cons]
      omega
    · simp [List.dropWhile, h]

theorem skipWs_length (s : Chars) : (skipWs s).length ≤ s.length :=
  dropWhile_len_le _ s

theorem skipWs_idem (s : Chars) : skipWs (skipWs s) = skipWs s := by
  induction s with
  | nil => rfl
  | cons c t ih =>
    by_cases h : Extract.isRustWs c
    · simpa [skipWs, List.dropWhile, h] using ih
    · simp [skipWs, List.dropWhile, h]

theorem readCmd_length (s : Chars) : (readCmd s).2.length ≤ s.length := by
  cases s with
  | nil => simp [readCmd]
  | cons c rest =>
    unfold readCmd
    dsimp only
    split
    · simp
    · simpa using dropWhile_len_le Char.isAlpha (c :: rest)

theorem readUntil_length (stop : Char) (s : Chars) :
    (readUntil stop s).2.length ≤ s.length := by
  simpa [readUntil] using dropWhile_len_le _ s

theorem eatTok_length (c : Char) (s : Chars) :
    (eatTok c s).2.length ≤ s.length := by
  unfold eatTok
  split
  · rename_i c' rest h
    have h1 : (c' :: rest).length ≤ s.length := h ▸ skipWs_length s
    split <;> simp_all <;> omega
  · simp

theorem eatTok_true_length {c : Char} {s s1 : Chars}
    (h : eatTok c s = (true, s1)) : s1.length < s.length := by
  unfold eatTok at h
  split at h
  · rename_i c' rest heq
    have h1 : (c' :: rest).length ≤ s.length := heq ▸ skipWs_length s
    split at h
    · cases h; simp at h1 ⊢; omega
    · cases h
  · cases h

theorem readEnvName_length (s : Chars) : (readEnvName s).2.length ≤ s.length := by
  unfold readEnvName
  calc (eatTok '\x7d' (readUntil '\x7d' (eatTok '\x7b' s).2).2).2.length
      ≤ (readUntil '\x7d' (eatTok '\x7b' s).2).2.length := eatTok_length _ _
    _ ≤ (eatTok '\x7b' s).2.length := readUntil_length _ _
    _ ≤ s.length := eatTok_length _ _

theorem readDelimChar_length (s : Chars) :
    (readDelimChar s).2.length ≤ s.length := by
  unfold readDelimChar
  split
  · rename_i h
    have := skipWs_length s
    simp [h] at this
    simpa using this
  · rename_i c rest h
    have h1 : (c :: rest).length ≤ s.length := h ▸ skipWs_length s
    simp at h1
    split
    · have := readCmd_length rest
      simp only
      omega
    · split <;> simp <;> omega

end Parser

/-! ## Lemmas: the parser consumes input (never extends it)

For every fuelled parsing function: when it returns, the remaining input is a
suffix-bounded by the input it was given; `parse_single_atom` consumes at
least one character whenever it yields an atom, and `maybe_scripts` consumes
at least one whenever a fresh script marker is next.  These are the bounds
behind the termination (fuel-sufficiency) theorem. -/

namespace Parser

theorem parserBounds : ∀ fuel : Nat,
    (∀ stop s r, peuAux fuel stop s = some r → r.2.length ≤ s.length) ∧
    (∀ stop s r, peu fuel stop s = some r → r.2.length ≤ s.length) ∧
    (∀ s r, psa fuel s = some r →
      r.2.length ≤ s.length ∧ (r.1.isSome = true → r.2.length < s.length)) ∧
    (∀ s r, rg fuel s = some r → r.2.length ≤ s.length) ∧
    (∀ base sb sp s r, ms fuel base sb sp s = some r →
      r.2.length ≤ s.length ∧ (msTakes sb sp s = true → r.2.length < s.length)) ∧
    (∀ cmd s r, dcmd fuel cmd s = some r → r.2.length ≤ s.length) ∧
    (∀ env s r, penv fuel env s = some r → r.2.length ≤ s.length) ∧
    (∀ l rr s r, pmx fuel l rr s = some r → r.2.length ≤ s.length) ∧
    (∀ rows row s r, ptab fuel rows row s = some r → r.2.length ≤ s.length) := by
  intro fuel
  induction fuel with
  | zero =>
    refine ⟨?_, ?_, ?_, ?_, ?_, ?_, ?_, ?_, ?_⟩ <;>
      (intros; rename_i h; simp_all only [peuAux, peu, psa, rg, ms, dcmd, penv,
        pmx, ptab]; exact absurd h (by simp))
  | succ n ih =>
    obtain ⟨ihA, ihU, ihP, ihG, ihM, ihD, ihE, ihX, ihT⟩ := ih
    have hA : ∀ stop s r, peuAux (n+1) stop s = some r → r.2.length ≤ s.length := by
      intro stop s r h
      have hsk := skipWs_length s
      simp only [peuAux] at h
      rcases heq : skipWs s with _ | ⟨c, rest⟩ <;> rw [heq] at h hsk <;>
        simp only [List.length_cons] at h hsk
      · cases h; simp
      · split at h
        · cases h; simp only [List.length_cons]; omega
        · split at h
          · cases h; simp only [List.length_cons]; omega
          · split at h
            · rcases hms : ms n (.Row []) none none (c :: rest) with _ | ⟨a, s1⟩ <;>
                rw [hms] at h <;> dsimp only at h
              · exact absurd h (by simp)
              · rcases hrec : peuAux n stop s1 with _ | ⟨ns, s2⟩ <;>
                  rw [hrec] at h <;> dsimp only at h
                · exact absurd h (by simp)
                · cases h
                  have h1 := (ihM _ _ _ _ _ hms).1
                  have h2 := ihA _ _ _ hrec
                  simp only [List.length_cons] at h1
                  simp only at h2 ⊢
                  omega
            · rcases hpsa : psa n (c :: rest) with _ | ⟨oa, s1⟩ <;>
                rw [hpsa] at h <;> dsimp only at h
              · exact absurd h (by simp)
              · have h1 := (ihP _ _ hpsa).1
                simp only [List.length_cons] at h1
                rcases oa with _ | a <;> dsimp only at h
                · cases h
                  simp only at h1 ⊢
                  omega
                · rcases hms : ms n a none none s1 with _ | ⟨a2, s2⟩ <;>
                    rw [hms] at h <;> dsimp only at h
                  · exact absurd h (by simp)
                  · rcases hrec : peuAux n stop s2 with _ | ⟨ns, s3⟩ <;>
                      rw [hrec] at h <;> dsimp only at h
                    · exact absurd h (by simp)
                    · cases h
                      have h2 := (ihM _ _ _ _ _ hms).1
                      have h3 := ihA _ _ _ hrec
                      simp only at h2 h3 ⊢
                      omega
    have hU : ∀ stop s r, peu (n+1) stop s = some r → r.2.length ≤ s.length := by
      intro stop s r h
      simp only [peu] at h
      rcases hrec : peuAux n stop s with _ | ⟨ns, s1⟩ <;> rw [hrec] at h <;>
        dsimp only at h
      · exact absurd h (by simp)
      · cases h
        exact ihA _ _ _ hrec
    have hP : ∀ s r, psa (n+1) s = some r →
        r.2.length ≤ s.length ∧ (r.1.isSome = true → r.2.length < s.length) := by
      intro s r h
      have hsk := skipWs_length s
      simp only [psa] at h
      rcases heq : skipWs s with _ | ⟨c, rest⟩ <;> rw [heq] at h hsk <;>
        simp only [List.length_cons] at h hsk
      · cases h
        exact ⟨by simp, by intro hh; simp at hh⟩
      · split at h
        · have h1 := ihD _ _ _ h
          have h2 := readCmd_length rest
          exact ⟨by omega, fun _ => by omega⟩
        · split at h
          · rcases hpeu : peu n (fun c' => c' == '\x7d') rest with _ | ⟨nd, s1⟩ <;>
              rw [hpeu] at h <;> dsimp only at h
            · exact absurd h (by simp)
            · cases h
              have h1 := ihU _ _ _ hpeu
              have h2 := eatTok_length '\x7d' s1
              dsimp only at h1 ⊢
              exact ⟨by omega, fun _ => by omega⟩
          · split at h
            · cases h
              refine ⟨by simp only [List.length_cons]; omega, ?_⟩
              intro hh
              simp at hh
            · cases h
              dsimp only
              exact ⟨by omega, fun _ => by omega⟩
    have hG : ∀ s r, rg (n+1) s = some r → r.2.length ≤ s.length := by
      intro s r h
      simp only [rg] at h
      rcases het : eatTok '\x7b' s with ⟨b, s1⟩
      rw [het] at h
      have h2 : s1.length ≤ s.length := by
        have := eatTok_length '\x7b' s
        rw [het] at this
        exact this
      rcases b <;> dsimp only at h
      · rcases hpsa : psa n s1 with _ | ⟨oa, s2⟩ <;> rw [hpsa] at h <;> dsimp only at h
        · exact absurd h (by simp)
        · cases h
          have h3 := (ihP _ _ hpsa).1
          dsimp only at h3 ⊢
          omega
      · rcases hpeu : peu n (fun c => c == '\x7d') s1 with _ | ⟨nd, s2⟩ <;>
          rw [hpeu] at h <;> dsimp only at h
        · exact absurd h (by simp)
        · cases h
          have h3 := ihU _ _ _ hpeu
          have h4 := eatTok_length '\x7d' s2
          dsimp only at h3 ⊢
          omega
    have hM : ∀ base sb sp s r, ms (n+1) base sb sp s = some r →
        r.2.length ≤ s.length ∧ (msTakes sb sp s = true → r.2.length < s.length) := by
      intro base sb sp s r h
      have hsk := skipWs_length s
      simp only [ms] at h
      rcases heq : skipWs s with _ | ⟨c, rest⟩ <;> rw [heq] at h hsk <;>
        simp only [List.length_cons] at h hsk
      · cases h
        refine ⟨by simp, ?_⟩
        intro hmt
        simp [msTakes, heq] at hmt
      · split at h
        · rcases hrg : rg n rest with _ | ⟨g, s1⟩ <;> rw [hrg] at h <;> dsimp only at h
          · exact absurd h (by simp)
          · have h1 := ihG _ _ hrg
            have h2 := (ihM _ _ _ _ _ h).1
            dsimp only at h1
            exact ⟨by omega, fun _ => by omega⟩
        · split at h
          · rcases hrg : rg n rest with _ | ⟨g, s1⟩ <;> rw [hrg] at h <;> dsimp only at h
            · exact absurd h (by simp)
            · have h1 := ihG _ _ hrg
              have h2 := (ihM _ _ _ _ _ h).1
              dsimp only at h1
              exact ⟨by omega, fun _ => by omega⟩
          · cases h
            rename_i hc1 hc2
            refine ⟨by simp only [List.length_cons]; omega, ?_⟩
            intro hmt
            simp only [msTakes, heq, Bool.or_eq_true] at hmt
            rcases hmt with hmt | hmt
            · exact absurd hmt hc1
            · exact absurd hmt hc2
    have hD : ∀ cmd s r, dcmd (n+1) cmd s = some r → r.2.length ≤ s.length := by
      intro cmd s r h
      simp only [dcmd] at h
      split at h
      all_goals first
        | (cases h; dsimp only; exact Nat.le_refl _)
        | (cases h; dsimp only; exact readEnvName_length s)
        | (exact (ihP _ _ h).1)
        | (have h1 := ihE _ _ _ h
           have h2 := readEnvName_length s
           omega)
        | (cases h
           dsimp only
           have h1 := eatTok_length '\x7b' s
           have h2 := readUntil_length '\x7d' (eatTok '\x7b' s).2
           have h3 := eatTok_length '\x7d' (readUntil '\x7d' (eatTok '\x7b' s).2).2
           omega)
        | (rcases h1 : rg n s with _ | ⟨c1, s1⟩
           · rw [h1] at h; exact absurd h (by simp)
           · rw [h1] at h
             dsimp only at h
             cases h
             have h2 := ihG _ _ h1
             dsimp only at h2 ⊢
             exact h2)
        | (rcases h1 : rg n s with _ | ⟨c1, s1⟩
           · rw [h1] at h; exact absurd h (by simp)
           · rw [h1] at h
             dsimp only at h
             rcases h2 : rg n s1 with _ | ⟨c2, s2⟩
             · rw [h2] at h; exact absurd h (by simp)
             · rw [h2] at h
               dsimp only at h
               cases h
               have h3 := ihG _ _ h1
               have h4 := ihG _ _ h2
               dsimp only at h3 h4 ⊢
               omega)
        | (rcases h1 : peu n (fun _ => false) (readDelimChar s).2 with _ | ⟨inner, s2⟩
           · rw [h1] at h; exact absurd h (by simp)
           · rw [h1] at h
             dsimp only at h
             cases h
             have h2 := ihU _ _ _ h1
             have h3 := readDelimChar_length s
             have h4 := readCmd_length s2.tail
             have h5 := readDelimChar_length (readCmd s2.tail).2
             have h6 : s2.tail.length ≤ s2.length := by cases s2 <;> simp
             dsimp only at h2 ⊢
             omega)
        | (rcases h1 : simpleCmd cmd with _ | nd <;> rw [h1] at h <;>
             dsimp only at h <;> cases h <;> dsimp only <;> exact Nat.le_refl _)
    have hT : ∀ rows row s r, ptab (n+1) rows row s = some r → r.2.length ≤ s.length := by
      intro rows row s r h
      simp only [ptab] at h
      rcases h1 : peu n (fun c => c == '&') s with _ | ⟨cell, s1⟩ <;> rw [h1] at h <;>
        dsimp only at h
      · exact absurd h (by simp)
      · have hc := ihU _ _ _ h1
        dsimp only at hc
        have hs2 := skipWs_length s1
        have ht2 : (skipWs s1).tail.length ≤ (skipWs s1).length := by
          cases skipWs s1 <;> simp
        split at h
        · have h2 := ihT _ _ _ _ h
          omega
        · split at h
          · have hrc := readCmd_length (skipWs s1).tail
            split at h
            · cases h
              have h3 := readEnvName_length (readCmd (skipWs s1).tail).2
              dsimp only
              omega
            · split at h
              · have h2 := ihT _ _ _ _ h
                have hsk3 := skipWs_length (readCmd (skipWs s1).tail).2
                have htk : (skipWs (readCmd (skipWs s1).tail).2).tail.length ≤
                    (skipWs (readCmd (skipWs s1).tail).2).length := by
                  cases skipWs (readCmd (skipWs s1).tail).2 <;> simp
                have e1 := readUntil_length ']' (skipWs (readCmd (skipWs s1).tail).2).tail
                have e2 := eatTok_length ']'
                  (readUntil ']' (skipWs (readCmd (skipWs s1).tail).2).tail).2
                split at h2 <;> omega
              · split at h
                · have h2 := ihT _ _ _ _ h
                  have e0 := eatTok_length '\x7b' (readCmd (skipWs s1).tail).2
                  have e1 := readUntil_length '\x7d'
                    (eatTok '\x7b' (readCmd (skipWs s1).tail).2).2
                  have e2 := eatTok_length '\x7d'
                    (readUntil '\x7d' (eatTok '\x7b' (readCmd (skipWs s1).tail).2).2).2
                  split at h2 <;> omega
                · cases h
                  dsimp only
                  omega
          · cases h
            dsimp only
            omega
    have hX : ∀ l rr s r, pmx (n+1) l rr s = some r → r.2.length ≤ s.length := by
      intro l rr s r h
      simp only [pmx] at h
      rcases h1 : ptab n [] [] s with _ | ⟨rows, s1⟩ <;> rw [h1] at h <;> dsimp only at h
      · exact absurd h (by simp)
      · cases h
        have h2 := ihT _ _ _ _ h1
        dsimp only at h2 ⊢
        exact h2
    have hE : ∀ env s r, penv (n+1) env s = some r → r.2.length ≤ s.length := by
      intro env s r h
      simp only [penv] at h
      split at h
      all_goals first
        | (exact ihX _ _ _ _ h)
        | (rcases h1 : ptab n [] [] s with _ | ⟨rows2, s1⟩
           · rw [h1] at h; exact absurd h (by simp)
           · rw [h1] at h
             dsimp only at h
             cases h
             have h2 := ihT _ _ _ _ h1
             dsimp only at h2 ⊢
             exact h2)
        | (have h1 := ihX _ _ _ _ h
           have hs0 := skipWs_length s
           have e1 := eatTok_length '\x7b' (skipWs s)
           have e2 := readUntil_length '\x7d' (eatTok '\x7b' (skipWs s)).2
           have e3 := eatTok_length '\x7d' (readUntil '\x7d' (eatTok '\x7b' (skipWs s)).2).2
           split at h1 <;> omega)
    exact ⟨hA, hU, hP, hG, hM, hD, hE, hX, hT⟩

end Parser

namespace Parser

theorem head_some_tail_len {α : Type} {l : List α} {a : α} (h : l.head? = some a) :
    l.tail.length + 1 = l.length := by
  cases l
  · simp at h
  · simp

/-- Fuel sufficiency: with fuel exceeding `8·(remaining input) + rank`, no
parsing function runs out (`rank` orders the functions that can call each
other without consuming input).  This is the termination argument of the
recursive-descent parser. -/
theorem parserFuel : ∀ fuel : Nat,
    (∀ stop s, 8 * s.length + 2 < fuel → (peuAux fuel stop s).isSome = true) ∧
    (∀ stop s, 8 * s.length + 3 < fuel → (peu fuel stop s).isSome = true) ∧
    (∀ s, 8 * s.length < fuel → (psa fuel s).isSome = true) ∧
    (∀ s, 8 * s.length + 1 < fuel → (rg fuel s).isSome = true) ∧
    (∀ base sb sp s, 8 * s.length + 1 < fuel → (ms fuel base sb sp s).isSome = true) ∧
    (∀ cmd s, 8 * s.length + 7 < fuel → (dcmd fuel cmd s).isSome = true) ∧
    (∀ env s, 8 * s.length + 6 < fuel → (penv fuel env s).isSome = true) ∧
    (∀ l rr s, 8 * s.length + 5 < fuel → (pmx fuel l rr s).isSome = true) ∧
    (∀ rows row s, 8 * s.length + 4 < fuel → (ptab fuel rows row s).isSome = true) := by
  intro fuel
  induction fuel with
  | zero => refine ⟨?_, ?_, ?_, ?_, ?_, ?_, ?_, ?_, ?_⟩ <;> intros <;> omega
  | succ n ih =>
    obtain ⟨iA, iU, iP, iG, iM, iD, iE, iX, iT⟩ := ih
    obtain ⟨bA, bU, bP, bG, bM, bD, bE, bX, bT⟩ := parserBounds n
    have sM : ∀ base sb sp s, 8 * s.length + 1 < n + 1 →
        (ms (n+1) base sb sp s).isSome = true := by
      intro base sb sp s hf
      simp only [ms]
      rcases heq : skipWs s with _ | ⟨c, rest⟩
      · simp
      · have hlen : rest.length + 1 ≤ s.length := by
          have := skipWs_length s
          rw [heq] at this
          simpa using this
        dsimp only
        split
        · have hrg := iG rest (by omega)
          obtain ⟨⟨g, s1⟩, hrg⟩ := Option.isSome_iff_exists.mp hrg
          rw [hrg]
          dsimp only
          have hb := bG _ _ hrg
          dsimp only at hb
          exact iM _ _ _ _ (by omega)
        · split
          · have hrg := iG rest (by omega)
            obtain ⟨⟨g, s1⟩, hrg⟩ := Option.isSome_iff_exists.mp hrg
            rw [hrg]
            dsimp only
            have hb := bG _ _ hrg
            dsimp only at hb
            exact iM _ _ _ _ (by omega)
          · simp
    have sA : ∀ stop s, 8 * s.length + 2 < n + 1 →
        (peuAux (n+1) stop s).isSome = true := by
      intro stop s hf
      simp only [peuAux]
      rcases heq : skipWs s with _ | ⟨c, rest⟩
      · simp
      · have hlen : rest.length + 1 ≤ s.length := by
          have := skipWs_length s
          rw [heq] at this
          simpa using this
        have hid : skipWs (c :: rest) = c :: rest := by
          have := skipWs_idem s
          rw [heq] at this
          exact this
        dsimp only
        split
        · simp
        · split
          · simp
          · split
            · rename_i hns hcaret
              have hms := iM (.Row []) none none (c :: rest)
                (by simp only [List.length_cons]; omega)
              obtain ⟨⟨a, s1⟩, hms⟩ := Option.isSome_iff_exists.mp hms
              rw [hms]
              dsimp only
              have hb := bM _ _ _ _ _ hms
              have htk : msTakes (none : Option MathNode) none (c :: rest) = true := by
                simp only [msTakes, hid, Option.isNone_none, Bool.and_true]
                exact hcaret
              have hstrict := hb.2 htk
              simp only [List.length_cons] at hstrict
              have hrec := iA stop s1 (by omega)
              obtain ⟨⟨ns, s2⟩, hrec⟩ := Option.isSome_iff_exists.mp hrec
              rw [hrec]
              simp
            · have hpsa := iP (c :: rest) (by simp only [List.length_cons]; omega)
              obtain ⟨⟨oa, s1⟩, hpsa⟩ := Option.isSome_iff_exists.mp hpsa
              rw [hpsa]
              dsimp only
              have hb := bP _ _ hpsa
              rcases oa with _ | a
              · simp
              · dsimp only
                have hstrict := hb.2 (by simp)
                simp only [List.length_cons] at hstrict hb
                have hms := iM a none none s1 (by omega)
                obtain ⟨⟨a2, s2⟩, hms⟩ := Option.isSome_iff_exists.mp hms
                rw [hms]
                dsimp only
                have hb2 : s2.length ≤ s1.length := by
                  simpa using (bM _ _ _ _ _ hms).1
                have hrec := iA stop s2 (by omega)
                obtain ⟨⟨ns, s3⟩, hrec⟩ := Option.isSome_iff_exists.mp hrec
                rw [hrec]
                simp
    have sU : ∀ stop s, 8 * s.length + 3 < n + 1 → (peu (n+1) stop s).isSome = true := by
      intro stop s hf
      simp only [peu]
      have hrec := iA stop s (by omega)
      obtain ⟨⟨ns, s1⟩, hrec⟩ := Option.isSome_iff_exists.mp hrec
      rw [hrec]
      simp
    have sP : ∀ s, 8 * s.length < n + 1 → (psa (n+1) s).isSome = true := by
      intro s hf
      simp only [psa]
      rcases heq : skipWs s with _ | ⟨c, rest⟩
      · simp
      · have hlen : rest.length + 1 ≤ s.length := by
          have := skipWs_length s
          rw [heq] at this
          simpa using this
        dsimp only
        split
        · have hc := readCmd_length rest
          exact iD _ _ (by omega)
        · split
          · have hpeu := iU (fun c' => c' == '\x7d') rest (by omega)
            obtain ⟨⟨nd, s1⟩, hpeu⟩ := Option.isSome_iff_exists.mp hpeu
            rw [hpeu]
            simp
          · split
            · simp
            · simp
    have sG : ∀ s, 8 * s.length + 1 < n + 1 → (rg (n+1) s).isSome = true := by
      intro s hf
      simp only [rg]
      rcases het : eatTok '\x7b' s with ⟨b, s1⟩
      rcases b
      · have h2 : s1.length ≤ s.length := by
          have := eatTok_length '\x7b' s
          rw [het] at this
          exact this
        dsimp only
        have hpsa := iP s1 (by omega)
        obtain ⟨⟨oa, s2⟩, hpsa⟩ := Option.isSome_iff_exists.mp hpsa
        rw [hpsa]
        simp
      · have h2 : s1.length < s.length := eatTok_true_length het
        dsimp only
        have hpeu := iU (fun c => c == '\x7d') s1 (by omega)
        obtain ⟨⟨nd, s2⟩, hpeu⟩ := Option.isSome_iff_exists.mp hpeu
        rw [hpeu]
        simp
    have sD : ∀ cmd s, 8 * s.length + 7 < n + 1 → (dcmd (n+1) cmd s).isSome = true := by
      intro cmd s hf
      simp only [dcmd]
      split
      all_goals first
        | (simp; done)
        | (exact iP _ (by omega))
        | (have h2 := readEnvName_length s
           exact iE _ _ (by omega))
        | (have hrg := iG s (by omega)
           obtain ⟨⟨c1, s1⟩, hrg⟩ := Option.isSome_iff_exists.mp hrg
           rw [hrg]
           dsimp only
           have hb1 : s1.length ≤ s.length := by simpa using bG _ _ hrg
           have hrg2 := iG s1 (by omega)
           obtain ⟨⟨c2, s2⟩, hrg2⟩ := Option.isSome_iff_exists.mp hrg2
           rw [hrg2]
           simp
           done)
        | (have hrg := iG s (by omega)
           obtain ⟨⟨c1, s1⟩, hrg⟩ := Option.isSome_iff_exists.mp hrg
           rw [hrg]
           simp
           done)
        | (have h3 := readDelimChar_length s
           have hpeu := iU (fun _ => false) (readDelimChar s).2 (by omega)
           obtain ⟨⟨inner, s2⟩, hpeu⟩ := Option.isSome_iff_exists.mp hpeu
           rw [hpeu]
           simp
           done)
        | (rcases simpleCmd cmd with _ | nd <;> simp)
    have sT : ∀ rows row s, 8 * s.length + 4 < n + 1 →
        (ptab (n+1) rows row s).isSome = true := by
      intro rows row s hf
      simp only [ptab]
      have hpeu := iU (fun c => c == '&') s (by omega)
      obtain ⟨⟨cell, s1⟩, hpeu⟩ := Option.isSome_iff_exists.mp hpeu
      rw [hpeu]
      dsimp only
      have hb1 := bU _ _ _ hpeu
      dsimp only at hb1
      have hsw := skipWs_length s1
      split
      · rename_i hcond
        have htl := head_some_tail_len hcond
        exact iT _ _ _ (by omega)
      · split
        · rename_i hcond1 hcond2
          have htl := head_some_tail_len hcond2
          have hrc := readCmd_length (skipWs s1).tail
          split
          · simp
          · split
            · have hsk3 := skipWs_length (readCmd (skipWs s1).tail).2
              have e1 := readUntil_length ']' (skipWs (readCmd (skipWs s1).tail).2).tail
              have e2 := eatTok_length ']'
                (readUntil ']' (skipWs (readCmd (skipWs s1).tail).2).tail).2
              have htk2 : (skipWs (readCmd (skipWs s1).tail).2).tail.length ≤
                  (skipWs (readCmd (skipWs s1).tail).2).length := by
                cases skipWs (readCmd (skipWs s1).tail).2 <;> simp
              exact iT _ _ _ (by split <;> omega)
            · split
              · have e0 := eatTok_length '\x7b' (readCmd (skipWs s1).tail).2
                have e1 := readUntil_length '\x7d'
                  (eatTok '\x7b' (readCmd (skipWs s1).tail).2).2
                have e2 := eatTok_length '\x7d'
                  (readUntil '\x7d' (eatTok '\x7b' (readCmd (skipWs s1).tail).2).2).2
                exact iT _ _ _ (by split <;> omega)
              · simp
        · simp
    have sX : ∀ l rr s, 8 * s.length + 5 < n + 1 → (pmx (n+1) l rr s).isSome = true := by
      intro l rr s hf
      simp only [pmx]
      have hpt := iT [] [] s (by omega)
      obtain ⟨⟨rws, s1⟩, hpt⟩ := Option.isSome_iff_exists.mp hpt
      rw [hpt]
      simp
    have sE : ∀ env s, 8 * s.length + 6 < n + 1 → (penv (n+1) env s).isSome = true := by
      intro env s hf
      simp only [penv]
      split
      all_goals first
        | (exact iX _ _ _ (by omega))
        | (have hpt := iT [] [] s (by omega)
           obtain ⟨⟨rws, s1⟩, hpt⟩ := Option.isSome_iff_exists.mp hpt
           rw [hpt]
           simp)
        | (have hs0 := skipWs_length s
           have e1 := eatTok_length '\x7b' (skipWs s)
           have e2 := readUntil_length '\x7d' (eatTok '\x7b' (skipWs s)).2
           have e3 := eatTok_length '\x7d' (readUntil '\x7d' (eatTok '\x7b' (skipWs s)).2).2
           exact iX _ _ _ (by split <;> omega))
    exact ⟨sA, sU, sP, sG, sM, sD, sE, sX, sT⟩

end Parser

namespace Parser

theorem stripEnvWrapper_of_trim_nil {input : Extract.Chars}
    (h : Extract.trimWs input = []) : stripEnvWrapper input = [] := by
  unfold stripEnvWrapper
  rw [h]
  rfl

theorem trimWs_of_all_ws {s : Extract.Chars}
    (h : ∀ c ∈ s, Extract.isRustWs c) : Extract.trimWs s = [] := by
  unfold Extract.trimWs
  rw [List.dropWhile_eq_nil_iff.mpr h]
  rfl

end Parser

/-- C6: `parse` is a total terminating function: for every input string
(including malformed markup, unterminated groups, trailing backslashes and
unknown commands) it terminates with an AST node — here, the fuelled
recursive-descent machine is proved never to exhaust the fuel `parse`
hands it. -/
theorem c6_parse_total (s : String) : ∃ node, Parser.parse s = some node := by
  unfold Parser.parse Parser.parseChars
  have h := (Parser.parserFuel (Parser.parseFuel
      (Parser.stripEnvWrapper s.toList).length)).2.1 (fun _ => false)
    (Parser.stripEnvWrapper s.toList) (by unfold Parser.parseFuel; omega)
  obtain ⟨⟨nd, rest⟩, h⟩ := Option.isSome_iff_exists.mp h
  simp only [h]
  exact ⟨nd, rfl⟩

/-- C7: script attachment accepts at most one `^` and at most one `_` per
atom in either order and stores the subscript before the superscript in
`SubSup`: `parse "x^2_i"` and `parse "x_i^2"` both give
`SubSup (Symbol x) (Symbol i) (Symbol 2)`, while a second `^` is not
attached to the same atom (`x^2^3` parses as two separate `Sup` atoms). -/
theorem c7_subsup_order :
    Parser.parse "x^2_i" =
      some (.SubSup (.Symbol 'x') (.Symbol 'i') (.Symbol '2')) ∧
    Parser.parse "x_i^2" =
      some (.SubSup (.Symbol 'x') (.Symbol 'i') (.Symbol '2')) ∧
    Parser.parse "x^2^3" =
      some (.Row [.Sup (.Symbol 'x') (.Symbol '2'),
                  .Sup (.Row []) (.Symbol '3')]) :=
  ⟨rfl, rfl, rfl⟩

/-- C10: the empty input and every all-whitespace input (whitespace in the
sense of Rust `char::is_whitespace`, i.e. Unicode `White_Space`) parse to
the empty `Row`; and `parse_expr_until` returns `Row []` when it
accumulates no atoms and collapses a single accumulated atom to that atom
(the `collapseRow` post-step over the accumulated list). -/
theorem c10_empty_whitespace_and_collapse :
    Parser.parse "" = some (.Row []) ∧
    (∀ s : String, (∀ c ∈ s.toList, Extract.isRustWs c) →
      Parser.parse s = some (.Row [])) ∧
    (∀ fuel stop s ns r, Parser.peuAux fuel stop s = some (ns, r) →
      Parser.peu (fuel+1) stop s = some (Parser.collapseRow ns, r)) := by
  refine ⟨rfl, ?_, ?_⟩
  · intro s hws
    have hstrip : Parser.stripEnvWrapper s.toList = [] :=
      Parser.stripEnvWrapper_of_trim_nil (Parser.trimWs_of_all_ws hws)
    unfold Parser.parse Parser.parseChars
    simp only [hstrip]
    rfl
  · intro fuel stop s ns r h
    simp only [Parser.peu, h]

/-- Witness for C10: the input of one space, one vertical tab (U+000B) and
one no-break space (U+00A0) — whitespace only beyond the ASCII-narrow set —
is all-whitespace and parses to the empty `Row`. -/
theorem c10_witness :
    (∀ c ∈ (" \u000B\u00A0" : String).toList, Extract.isRustWs c) ∧
      Parser.parse " \u000B\u00A0" = some (.Row []) :=
  ⟨by decide, c10_empty_whitespace_and_collapse.2.1 " \u000B\u00A0" (by decide)⟩

/-- C8 counterexample: (i) the (parseable, non-empty) formula `\!` measures
to a negative width and zero height; the saturating `as u32` casts truncate
both to `0`, so the image is exactly `2·pad` by `2·pad` — the claimed strict
excess for non-empty formulas fails (the cast truncates rather than taking
the ceiling); (ii) at scale `2^27` the `u32` product `padding * 2` wraps to
`0`, so the image width collapses to `1`, strictly below `2·pad` — even the
non-strict bound fails once the wrapping `u32` arithmetic overflows. -/
theorem c8_counterexample :
    Parser.parse "\\!" = some (.Space (-(17/100))) ∧
    (Render.renderEquation Render.anyFont (.Space (-(17/100))) .dark 24 3).imgW =
      2 * Render.pad 3 ∧
    (Render.renderEquation Render.anyFont (.Space (-(17/100))) .dark 24 3).imgH =
      2 * Render.pad 3 ∧
    (Render.renderEquation Render.anyFont (.Row []) .dark 24 134217728).imgW = 1 ∧
    (Render.renderEquation Render.anyFont (.Row []) .dark 24 134217728).imgW <
      2 * Render.pad 134217728 := by
  refine ⟨rfl, ?_, ?_, ?_, ?_⟩ <;>
    · simp only [Render.renderEquation, Render.measure, Render.measureRowGo,
        Render.pad, Render.toU32, Render.Dims.height]
      norm_num
      decide

/-- C8 amended: whenever the `u32` quantities `padding * 2 + dims as u32` stay
below `2^32` (no overflow — e.g. any CLI-realistic scale), the rendered image
is at least `2·pad` wide and `2·pad` high, with `pad = (16·scale) as u32`;
the content contributes `dims as u32` — a *truncating, zero-clamped* cast,
not a ceiling — extra pixels, so a non-empty formula need not strictly
exceed `2·pad`, and for scales large enough to overflow the wrapping `u32`
arithmetic even the non-strict bound fails. -/
theorem c8_dimensions_at_least_padding (f : Render.FontM) (node : Parser.MathNode)
    (theme : Render.Theme) (fontSize scale : ℚ)
    (hw : Render.pad scale * 2 +
      Render.toU32 (Render.measure f (fontSize * scale) node).width < 4294967296)
    (hh : Render.pad scale * 2 +
      Render.toU32 (Render.measure f (fontSize * scale) node).height < 4294967296) :
    2 * Render.pad scale ≤ (Render.renderEquation f node theme fontSize scale).imgW ∧
    2 * Render.pad scale ≤ (Render.renderEquation f node theme fontSize scale).imgH := by
  unfold Render.pad at hw hh ⊢
  unfold Render.renderEquation
  dsimp only
  constructor <;> omega

/-- Witness for C8: at scale `3` with the empty row nothing overflows and
both dimensions are at least `2·pad = 96`. -/
theorem c8_witness :
    2 * Render.pad 3 ≤
      (Render.renderEquation Render.anyFont (.Row []) .dark 24 3).imgW ∧
    2 * Render.pad 3 ≤
      (Render.renderEquation Render.anyFont (.Row []) .dark 24 3).imgH :=
  c8_dimensions_at_least_padding Render.anyFont (.Row []) .dark 24 3
    (by simp only [Render.measure, Render.measureRowGo, Render.pad,
          Render.toU32, Render.Dims.height]
        norm_num
        decide)
    (by simp only [Render.measure, Render.measureRowGo, Render.pad,
          Render.toU32, Render.Dims.height]
        norm_num
        decide)

/-- C9: theme selection affects only colors, never geometry: for every font,
AST, font size and scale, the measured dimensions, the output image width
and height, and the emitted draw-command list are identical between the
dark and light themes. -/
theorem c9_theme_changes_no_geometry (f : Render.FontM) (node : Parser.MathNode)
    (fontSize scale : ℚ) :
    (Render.renderEquation f node .dark fontSize scale).imgW =
      (Render.renderEquation f node .light fontSize scale).imgW ∧
    (Render.renderEquation f node .dark fontSize scale).imgH =
      (Render.renderEquation f node .light fontSize scale).imgH ∧
    (Render.renderEquation f node .dark fontSize scale).dims =
      (Render.renderEquation f node .light fontSize scale).dims ∧
    (Render.renderEquation f node .dark fontSize scale).cmds =
      (Render.renderEquation f node .light fontSize scale).cmds :=
  ⟨rfl, rfl, rfl, rfl⟩
